import Mathlib

/-!
Verification development for the `GraphViewer` entity-relationship
visualization component (CHVisualiser).  The component's data-fetching /
normalization pipeline and its layout / interaction engine are shallowly
embedded below: pure functions mirror the component's functions, component
state is threaded explicitly, JavaScript `Map`s become association lists
with JS `Map.set` semantics, and the float-valued geometry routines are
modelled over `ℚ` with the transcendental / irrational primitives
(`Math.sqrt`, `Math.cos`, `Math.sin`, `Math.atan2`, `Math.PI`,
`Math.random`) supplied by an explicit `Geom` oracle record, since exact
values of those primitives are unrepresentable in any exact arithmetic.
Theorems that depend on properties of `Math.sqrt` take the standard
idealized-float specification (non-negative, never overestimating the
exact square root) as a hypothesis on the oracle.
-/

namespace CHVis

/-! ### Data model (`EntityDefinition` and its `relations` entries) -/

/-- One entry of `EntityDefinition.relations`: a directed edge descriptor.
`name`, `role` and `cardinality` are `Option String` because the
corresponding raw-record members may be absent (`undefined` in JS).
The untyped `labels` bag is omitted. -/
structure Rel where
  target : String
  type : String
  name : Option String
  role : Option String
  cardinality : Option String
  isTaxonomy : Bool := false
  isPath : Bool := false
  allowNavigation : Bool := false
  isReverse : Bool := false
deriving DecidableEq, Repr

/-- An `EntityDefinition` record as held in component state.
The `properties` array and `description` play no role in any claim's
code path (they are only displayed), but are kept as counts/strings. -/
structure Ent where
  id : Nat
  name : String
  is_built_in : Bool := false
  is_taxonomy_item_definition : Bool := false
  relations : List Rel := []
  description : String := ""
deriving DecidableEq, Repr

instance : Inhabited Rel := ⟨{ target := "", type := "", name := none, role := none, cardinality := none }⟩

instance : Inhabited Ent := ⟨{ id := 0, name := "" }⟩

/-- JavaScript `String.prototype.endsWith`, as a suffix test on the
character sequence (kernel-reducible, unlike `String.endsWith`). -/
def strEndsWith (s p : String) : Bool :=
  p.data.isSuffixOf s.data

/-! ### Viewport controller (`handleMouseWheel`, `zoomIn`, `zoomOut`,
`centerNodeInView`, `resetNetworkView`) -/

/-- The `networkTransform` state `{x, y, scale}`. -/
structure Transform where
  x : ℚ
  y : ℚ
  scale : ℚ
deriving DecidableEq, Repr

/-- `handleMouseWheel`: one wheel event.  `deltaY` is the wheel delta and
`(mouseX, mouseY)` the cursor position relative to the SVG
(`event.clientX - rect.left`, `event.clientY - rect.top`). -/
def handleMouseWheel (t : Transform) (deltaY mouseX mouseY : ℚ) : Transform :=
  let delta : ℚ := if 0 < deltaY then 9/10 else 11/10
  let worldX := (mouseX - t.x) / t.scale
  let worldY := (mouseY - t.y) / t.scale
  let newScale := max (3/10) (min 3 (t.scale * delta))
  { x := mouseX - worldX * newScale
    y := mouseY - worldY * newScale
    scale := newScale }

/-- `zoomIn`: the zoom-in button (`scale * 1.3` capped at `3`). -/
def zoomIn (t : Transform) : Transform :=
  { t with scale := min (t.scale * (13/10)) 3 }

/-- `zoomOut`: the zoom-out button (`scale / 1.3` floored at `0.3`). -/
def zoomOut (t : Transform) : Transform :=
  { t with scale := max (t.scale / (13/10)) (3/10) }

/-- The world-space point under screen point `(px, py)` for transform `t`:
`worldOf(P, T) = (P - T.translation) / T.scale`, as computed at the top of
`handleMouseWheel`. -/
def worldOf (px py : ℚ) (t : Transform) : ℚ × ℚ :=
  ((px - t.x) / t.scale, (py - t.y) / t.scale)

end CHVis

namespace CHVis

/-! ### Claim C5: cursor-anchored zoom -/

theorem worldOf_handleMouseWheel (t : Transform) (deltaY mouseX mouseY : ℚ)
    (hs : t.scale ≠ 0) :
    worldOf mouseX mouseY (handleMouseWheel t deltaY mouseX mouseY) =
      worldOf mouseX mouseY t := by
  unfold worldOf handleMouseWheel
  simp only [Prod.mk.injEq]
  generalize hgen : max (3/10 : ℚ) (min 3 (t.scale * (if 0 < deltaY then 9/10 else 11/10))) = s
  have hpos : (3/10 : ℚ) ≤ s := hgen ▸ le_max_left _ _
  have hns : s ≠ 0 := by
    intro h
    rw [h] at hpos
    exact absurd hpos (by norm_num)
  constructor
  · field_simp
    ring
  · field_simp
    ring

/-- Witness for `worldOf_handleMouseWheel` at the identity transform and a
concrete cursor point. -/
theorem worldOf_handleMouseWheel_witness :
    (Transform.mk 0 0 1).scale ≠ 0 ∧
      worldOf 5 7 (handleMouseWheel ⟨0, 0, 1⟩ 1 5 7) = worldOf 5 7 ⟨0, 0, 1⟩ :=
  ⟨by norm_num, worldOf_handleMouseWheel ⟨0, 0, 1⟩ 1 5 7 (by norm_num)⟩

/-! ### Claim C6: zoom step factors -/

/-- Claim C6 as stated: a wheel tick multiplies the scale by `1.1`
(zoom in, `deltaY ≤ 0`) or by `1/1.1` (zoom out, `deltaY > 0`), the zoom
buttons multiply/divide by `1.3`, and every resulting scale is clamped to
`[0.3, 3]` (stated for transforms whose scale is already in range). -/
def claimZoomFactors : Prop :=
  ∀ t : Transform, 3/10 ≤ t.scale → t.scale ≤ 3 →
    (∀ deltaY mouseX mouseY : ℚ,
        (handleMouseWheel t deltaY mouseX mouseY).scale =
          max (3/10) (min 3 (t.scale * (if 0 < deltaY then 1 / (11/10) else 11/10)))) ∧
    (zoomIn t).scale = max (3/10) (min 3 (t.scale * (13/10))) ∧
    (zoomOut t).scale = max (3/10) (min 3 (t.scale / (13/10)))

/-- C6 fails on the code: at scale `1`, a zoom-out wheel tick
(`deltaY = 1 > 0`) yields scale `0.9`, not `1/1.1 = 10/11`. -/
theorem claimZoomFactors_false : ¬ claimZoomFactors := by
  intro h
  have h1 := (h ⟨0, 0, 1⟩ (by norm_num) (by norm_num)).1 1 0 0
  have h2 : (handleMouseWheel ⟨0, 0, 1⟩ 1 0 0).scale = 9/10 := by
    unfold handleMouseWheel
    norm_num
  rw [h2] at h1
  norm_num at h1

/-- Amended C6: the wheel zoom-out factor is `0.9` (not `1/1.1`); the wheel
path clamps to `[0.3, 3]` on both sides, `zoomIn` caps at `3` and `zoomOut`
floors at `0.3`, and starting from a scale in `[0.3, 3]` every resulting
scale stays in `[0.3, 3]`. -/
theorem zoomStepFactors (t : Transform) (h1 : 3/10 ≤ t.scale) (h2 : t.scale ≤ 3) :
    (∀ deltaY mouseX mouseY : ℚ,
        (handleMouseWheel t deltaY mouseX mouseY).scale =
          max (3/10) (min 3 (t.scale * (if 0 < deltaY then 9/10 else 11/10))) ∧
        3/10 ≤ (handleMouseWheel t deltaY mouseX mouseY).scale ∧
        (handleMouseWheel t deltaY mouseX mouseY).scale ≤ 3) ∧
    ((zoomIn t).scale = min (t.scale * (13/10)) 3 ∧
      3/10 ≤ (zoomIn t).scale ∧ (zoomIn t).scale ≤ 3) ∧
    ((zoomOut t).scale = max (t.scale / (13/10)) (3/10) ∧
      3/10 ≤ (zoomOut t).scale ∧ (zoomOut t).scale ≤ 3) := by
  refine ⟨fun deltaY mouseX mouseY => ⟨rfl, le_max_left _ _, ?_⟩, ⟨rfl, ?_, min_le_right _ _⟩,
    ⟨rfl, le_max_right _ _, ?_⟩⟩
  · exact max_le (by norm_num) (min_le_left _ _)
  · unfold zoomIn
    simp only
    refine le_min (by nlinarith) (by norm_num)
  · unfold zoomOut
    simp only
    refine max_le ?_ (by norm_num)
    rw [div_le_iff₀ (by norm_num : (0:ℚ) < 13/10)]
    nlinarith

/-- Witness for `zoomStepFactors` at scale `1`. -/
theorem zoomStepFactors_witness :
    3/10 ≤ (Transform.mk 0 0 1).scale ∧ (Transform.mk 0 0 1).scale ≤ 3 ∧
      ((zoomIn ⟨0, 0, 1⟩).scale = min ((1:ℚ) * (13/10)) 3) :=
  ⟨by norm_num, by norm_num, (zoomStepFactors ⟨0, 0, 1⟩ (by norm_num) (by norm_num)).2.1.1⟩

/-! ### Paged fetch (`fetchAllPages`, lines 202-299) and the fetch
lifecycle trace used by the unmount-guard analysis.

Async structure: the fetch sequence suspends at each `await`
(`fetch`, `response.json()`, the inter-page `setTimeout` delay, and the
resolution of `processEntityDefinitions`).  A `step` counter advances at
every such suspension point; the component's cleanup (which clears the
`mounted` flag) can run at any step boundary.  Every `setXxx` state
commit is recorded as an event carrying the step at which it executes and
whether the code checks `mounted` before committing it. -/

/-- Which piece of component state a commit writes. -/
inductive CommitKind where
  | loadingFlag
  | progress
  | defsCommit
  | errorCommit
deriving DecidableEq, Repr

/-- One `setXxx` call made by the fetch sequence: the step at which it
runs and whether it is guarded by an `if (mounted)` check. -/
structure Ev where
  step : Nat
  kind : CommitKind
  guarded : Bool
deriving DecidableEq, Repr

/-- The optional total-count fields of a page envelope
(`totalItems | total | count | totalCount | total_items`). -/
structure Envelope where
  totalItems : Option Nat := none
  total : Option Nat := none
  count : Option Nat := none
  totalCount : Option Nat := none
  total_items : Option Nat := none
deriving DecidableEq, Repr

/-- The accepted response body shapes: a bare array, `{items: [...]}`,
`{content: [...]}`, or anything else (yields no items). -/
inductive PageBody (α : Type) where
  | arr (xs : List α)
  | items (xs : List α) (env : Envelope)
  | content (xs : List α) (env : Envelope)
  | other (env : Envelope)
deriving DecidableEq, Repr

/-- Outcome of one page request: `fail` covers both a thrown fetch/json
error and a non-success HTTP status (both `break` the loop). -/
inductive FetchResult (α : Type) where
  | fail
  | ok (body : PageBody α)
deriving DecidableEq, Repr

/-- `pageItems` extraction from the response shape (lines 238-246). -/
def extractItems {α : Type} : PageBody α → List α
  | .arr xs => xs
  | .items xs _ => xs
  | .content xs _ => xs
  | .other _ => []

/-- The envelope of a response body (a bare array has no envelope). -/
def envOf {α : Type} : PageBody α → Envelope
  | .arr _ => {}
  | .items _ env => env
  | .content _ env => env
  | .other env => env

/-- Total-count discovery (lines 249-268): first available of
`totalItems`, `total`, `count`, `totalCount`, `total_items`; on page 0,
if still nothing, estimate `pageItems.length * 4`. -/
def extractTotal (env : Envelope) (page totalItems pageItemsLen : Nat) : Nat :=
  match env.totalItems with
  | some t => t
  | none =>
    match env.total with
    | some t => t
    | none =>
      match env.count with
      | some t => t
      | none =>
        match env.totalCount with
        | some t => t
        | none =>
          match env.total_items with
          | some t => t
          | none => if page = 0 && totalItems = 0 then pageItemsLen * 4 else totalItems

/-- The mutable locals of `fetchAllPages`, plus the request log, the
commit-event log and the async step counter. -/
structure FetchSt (α : Type) where
  allData : List α
  page : Nat
  totalItems : Nat
  requests : List (Nat × Nat)
  events : List Ev
  step : Nat
deriving Repr

/-- One-or-more iterations of the `while (hasMore && page < 20)` loop.
`fuel` is `20 - page`; each iteration logs the unguarded
`setLoadingProgress` commit, records the request `(skip, take) =
(page * 25, 25)`, and advances the step counter across the `await`ed
fetch, json parse and inter-page delay. -/
def fetchPagesLoop {α : Type} (source : Nat → FetchResult α) :
    Nat → FetchSt α → FetchSt α
  | 0, st => st
  | fuel + 1, st =>
    let st0 := { st with
      events := st.events ++ [Ev.mk st.step .progress false]
      requests := st.requests ++ [(st.page * 25, 25)] }
    match source st.page with
    | .fail => { st0 with step := st0.step + 1 }
    | .ok body =>
      let st1 := { st0 with step := st0.step + 2 }
      let pageItems := extractItems body
      let total' := extractTotal (envOf body) st1.page st1.totalItems pageItems.length
      if pageItems.length = 0 then
        { st1 with totalItems := total', page := st1.page + 1, step := st1.step + 1 }
      else
        let st2 := { st1 with
          allData := st1.allData ++ pageItems
          totalItems := total'
          page := st1.page + 1 }
        if pageItems.length < 25 then { st2 with step := st2.step + 1 }
        else fetchPagesLoop source fuel { st2 with step := st2.step + 1 }

/-- The initial state of `fetchAllPages`. -/
def fetchInit {α : Type} : FetchSt α :=
  { allData := [], page := 0, totalItems := 0, requests := [], events := [], step := 0 }

/-- `fetchAllPages` up to (and excluding) the `processEntityDefinitions`
call: runs the pagination loop from the initial state. -/
def fetchAllPagesRun {α : Type} (source : Nat → FetchResult α) : FetchSt α :=
  fetchPagesLoop source 20 fetchInit

/-- The loop continues past page `n` iff the request succeeded and
returned at least 25 items (`take` is 25; zero or fewer than 25 items end
the pagination). -/
def contB {α : Type} (source : Nat → FetchResult α) (n : Nat) : Bool :=
  match source n with
  | .fail => false
  | .ok body => 25 ≤ (extractItems body).length

/-- Items contributed by page `n`: its extracted items, or nothing when
the request failed. -/
def itemsAt {α : Type} (source : Nat → FetchResult α) (n : Nat) : List α :=
  match source n with
  | .fail => []
  | .ok body => extractItems body

theorem range_map_shift {β : Type _} (f : Nat → β) (k : Nat) :
    (List.range (k + 1)).map f = f 0 :: (List.range k).map (fun n => f (n + 1)) := by
  rw [List.range_succ_eq_map, List.map_cons, List.map_map]
  rfl

theorem range_flatMap_shift {β : Type _} (f : Nat → List β) (k : Nat) :
    (List.range (k + 1)).flatMap f = f 0 ++ (List.range k).flatMap (fun n => f (n + 1)) := by
  rw [List.range_succ_eq_map]
  simp [List.flatMap_cons, List.flatMap_map]

/-- Characterization of the pagination loop, relative to an arbitrary
entry state: some number `k` of pages is requested; requests are
consecutive `(skip, take) = ((page+n)·25, 25)`; collected data is the
concatenation of the requested pages' items; every page before the last
requested one succeeded with a full 25 items; and if the loop stopped
before exhausting its fuel, the last requested page was a failure or
returned fewer than 25 items. -/
theorem fetchPagesLoop_char {α : Type} (source : Nat → FetchResult α) :
    ∀ (fuel : Nat) (st : FetchSt α),
    ∃ k, k ≤ fuel ∧
      (0 < fuel → 0 < k) ∧
      (fetchPagesLoop source fuel st).requests =
        st.requests ++ (List.range k).map (fun n => ((st.page + n) * 25, 25)) ∧
      (fetchPagesLoop source fuel st).allData =
        st.allData ++ (List.range k).flatMap (fun n => itemsAt source (st.page + n)) ∧
      (∀ m, m + 1 < k → contB source (st.page + m) = true) ∧
      (k < fuel → contB source (st.page + (k - 1)) = false) := by
  intro fuel
  induction fuel with
  | zero =>
    intro st
    exact ⟨0, by simp [fetchPagesLoop]⟩
  | succ fuel ih =>
    intro st
    by_cases hc : contB source st.page = true
    · -- the page continues: a successful page with ≥ 25 items
      obtain ⟨body, hsrc, hlen⟩ : ∃ body, source st.page = .ok body ∧
          25 ≤ (extractItems body).length := by
        unfold contB at hc
        rcases h : source st.page with _ | body
        · rw [h] at hc
          simp at hc
        · rw [h] at hc
          simp at hc
          exact ⟨body, rfl, hc⟩
      have hne : ¬ (extractItems body).length = 0 := by omega
      have hnlt : ¬ (extractItems body).length < 25 := by omega
      have hunfold : fetchPagesLoop source (fuel + 1) st =
          fetchPagesLoop source fuel
            { allData := st.allData ++ extractItems body
              page := st.page + 1
              totalItems := extractTotal (envOf body) st.page st.totalItems
                (extractItems body).length
              requests := st.requests ++ [(st.page * 25, 25)]
              events := st.events ++ [Ev.mk st.step .progress false]
              step := st.step + 3 } := by
        conv_lhs => rw [fetchPagesLoop]
        rw [hsrc]
        simp only [if_neg hne, if_neg hnlt]
      obtain ⟨k, hk, hkpos, hreq, hdat, hcont, hstop⟩ := ih
        { allData := st.allData ++ extractItems body
          page := st.page + 1
          totalItems := extractTotal (envOf body) st.page st.totalItems
            (extractItems body).length
          requests := st.requests ++ [(st.page * 25, 25)]
          events := st.events ++ [Ev.mk st.step .progress false]
          step := st.step + 3 }
      dsimp only at hreq hdat hcont hstop
      refine ⟨k + 1, by omega, fun _ => by omega, ?_, ?_, ?_, ?_⟩
      · rw [hunfold, hreq, range_map_shift]
        simp only [List.append_assoc, List.singleton_append, Nat.add_zero]
        congr 1
        congr 1
        apply List.map_congr_left
        intro a _
        have h1 : st.page + 1 + a = st.page + (a + 1) := by omega
        rw [h1]
      · rw [hunfold, hdat, range_flatMap_shift]
        have h0 : itemsAt source (st.page + 0) = extractItems body := by
          simp [itemsAt, hsrc]
        rw [h0, List.append_assoc]
        congr 1
        congr 1
        apply List.flatMap_congr
        intro a _
        have h1 : st.page + 1 + a = st.page + (a + 1) := by omega
        rw [h1]
      · intro m hm
        cases m with
        | zero => simpa using hc
        | succ m' =>
          have h2 := hcont m' (by omega)
          have h1 : st.page + 1 + m' = st.page + (m' + 1) := by omega
          rwa [h1] at h2
      · intro hlt
        have hk1 : 0 < k := hkpos (by omega)
        have h2 := hstop (by omega)
        have harith : st.page + 1 + (k - 1) = st.page + (k + 1 - 1) := by omega
        rwa [harith] at h2
    · -- the page stops the loop: failure, zero items, or a short page
      have hone : List.map (fun n => ((st.page + n) * 25, 25)) (List.range 1)
          = [(st.page * 25, 25)] := by
        rw [show List.range 1 = [0] from rfl]
        simp
      refine ⟨1, by omega, fun _ => by omega, ?_, ?_, ?_, ?_⟩
      · rw [hone]
        rcases hsrc : source st.page with _ | body
        · conv_lhs => rw [fetchPagesLoop]
          rw [hsrc]
        · have hlt : ¬ 25 ≤ (extractItems body).length := by
            unfold contB at hc
            rw [hsrc] at hc
            simpa using hc
          conv_lhs => rw [fetchPagesLoop]
          rw [hsrc]
          by_cases h0 : (extractItems body).length = 0
          · simp [h0]
          · simp [h0, if_pos (by omega : (extractItems body).length < 25)]
      · have hflat : (List.range 1).flatMap (fun n => itemsAt source (st.page + n))
            = itemsAt source st.page := by
          rw [show List.range 1 = [0] from rfl]
          simp
        rw [hflat]
        rcases hsrc : source st.page with _ | body
        · conv_lhs => rw [fetchPagesLoop]
          rw [hsrc]
          simp [itemsAt, hsrc]
        · have hlt : ¬ 25 ≤ (extractItems body).length := by
            unfold contB at hc
            rw [hsrc] at hc
            simpa using hc
          conv_lhs => rw [fetchPagesLoop]
          rw [hsrc]
          by_cases h0 : (extractItems body).length = 0
          · have hnil : extractItems body = [] := List.length_eq_zero.mp h0
            simp [h0, itemsAt, hsrc, hnil]
          · simp [h0, if_pos (by omega : (extractItems body).length < 25),
              itemsAt, hsrc]
      · intro m hm
        omega
      · intro _
        simpa using hc

end CHVis

namespace CHVis

/-! ### Claim C3: pagination termination and collection -/

/-- The mock source of the claim: pages 0-2 return 25 items each, page 3
returns 10 items. -/
def source85 : Nat → FetchResult Nat :=
  fun n =>
    if n < 3 then .ok (.arr (List.range 25))
    else if n = 3 then .ok (.arr (List.range 10))
    else .fail

/-- A source whose first two pages are full and whose third request
fails. -/
def sourceFail50 : Nat → FetchResult Nat :=
  fun n => if n < 2 then .ok (.arr (List.range 25)) else .fail

/-- Claim C3: (1) the loop requests pages `n = 0, 1, ...` with
`skip = 25·n`, `take = 25`, requesting `k ≤ 20` pages, collecting exactly
the concatenation of the requested pages' items; every requested page
except possibly the last returned a full 25 items, and if fewer than the
20-page cap were requested then the last requested page failed or
returned fewer than 25 items (zero included); (2) on the mock source
`25, 25, 25, 10` it collects exactly 85 raw records over 4 requests,
stopping before the cap; (3) a page failure at page `k` (all earlier
pages full) keeps the `25·k` records already collected. -/
theorem paginationLoop_spec :
    (∀ (α : Type) (source : Nat → FetchResult α),
      ∃ k, 0 < k ∧ k ≤ 20 ∧
        (fetchAllPagesRun source).requests = (List.range k).map (fun n => (25 * n, 25)) ∧
        (fetchAllPagesRun source).allData = (List.range k).flatMap (itemsAt source) ∧
        (∀ m, m + 1 < k → contB source m = true) ∧
        (k < 20 → contB source (k - 1) = false)) ∧
    ((fetchAllPagesRun source85).allData.length = 85 ∧
      (fetchAllPagesRun source85).requests = [(0, 25), (25, 25), (50, 25), (75, 25)]) ∧
    (∀ (α : Type) (source : Nat → FetchResult α) (k : Nat), k < 20 →
      source k = .fail → (∀ m, m < k → contB source m = true) →
      (fetchAllPagesRun source).allData = (List.range k).flatMap (itemsAt source)) := by
  have hgen : ∀ (α : Type) (source : Nat → FetchResult α),
      ∃ k, 0 < k ∧ k ≤ 20 ∧
        (fetchAllPagesRun source).requests = (List.range k).map (fun n => (25 * n, 25)) ∧
        (fetchAllPagesRun source).allData = (List.range k).flatMap (itemsAt source) ∧
        (∀ m, m + 1 < k → contB source m = true) ∧
        (k < 20 → contB source (k - 1) = false) := by
    intro α source
    obtain ⟨k, hk, hkpos, hreq, hdat, hcont, hstop⟩ :=
      fetchPagesLoop_char source 20 fetchInit
    refine ⟨k, hkpos (by omega), hk, ?_, ?_, ?_, ?_⟩
    · rw [show fetchAllPagesRun source = fetchPagesLoop source 20 fetchInit from rfl,
        hreq]
      simp only [fetchInit, List.nil_append]
      apply List.map_congr_left
      intro a _
      simp [Nat.mul_comm]
    · rw [show fetchAllPagesRun source = fetchPagesLoop source 20 fetchInit from rfl,
        hdat]
      simp only [fetchInit, List.nil_append]
      apply List.flatMap_congr
      intro a _
      simp [itemsAt]
    · intro m hm
      have h2 := hcont m hm
      simpa [fetchInit] using h2
    · intro hlt
      have h2 := hstop hlt
      simpa [fetchInit] using h2
  refine ⟨hgen, ⟨by decide, by decide⟩, ?_⟩
  intro α source k hk20 hfail hfull
  obtain ⟨k', hk'pos, hk', hreq, hdat, hcont, hstop⟩ := hgen α source
  have hck : contB source k = false := by
    unfold contB
    rw [hfail]
  have hkeq : k' = k + 1 := by
    by_cases hcap : k' < 20
    · have hlast := hstop hcap
      have hge : k ≤ k' - 1 := by
        by_contra hcon
        push_neg at hcon
        have := hfull (k' - 1) (by omega)
        rw [hlast] at this
        exact Bool.false_ne_true this
      have hle : k' ≤ k + 1 := by
        by_contra hcon
        push_neg at hcon
        have := hcont k (by omega)
        rw [hck] at this
        exact Bool.false_ne_true this
      omega
    · have hk'20 : k' = 20 := by omega
      have hge : 19 ≤ k := by
        by_contra hcon
        push_neg at hcon
        have := hcont k (by omega)
        rw [hck] at this
        exact Bool.false_ne_true this
      omega
  rw [hdat, hkeq, List.range_succ, List.flatMap_append]
  have : itemsAt source k = [] := by
    unfold itemsAt
    rw [hfail]
  simp [this]

/-- Witness for `paginationLoop_spec` (third conjunct) on a source whose
third page request fails: the two full pages are kept. -/
theorem paginationLoop_spec_witness :
    ((2:Nat) < 20 ∧ sourceFail50 2 = .fail ∧ (∀ m, m < 2 → contB sourceFail50 m = true)) ∧
      (fetchAllPagesRun sourceFail50).allData = (List.range 2).flatMap (itemsAt sourceFail50) :=
  ⟨⟨by norm_num, by decide, by decide⟩,
    paginationLoop_spec.2.2 Nat sourceFail50 2 (by norm_num) (by decide) (by decide)⟩

end CHVis

namespace CHVis

/-! ### Normalizer post-pass (`processEntityDefinitions`, lines 391-431)

The cross-referencing pass walks the entity array in order; for each
entity it walks the relation array as it stands when the walk reaches the
entity (JS `forEach` fixes the element count at call time, so reverse
relations appended to an earlier-processed entity are not revisited, while
ones appended to a later entity are).  Each step resolves the relation's
`target` against the loaded entities (exact name match, or suffix
containment either way, first match wins), rewrites `target` to the
resolved entity's canonical name, and appends a reverse relation to the
resolved entity unless it already has a relation back to the source
entity with the same relation `name`. -/

/-- `relation.role === 'Parent' ? 'Child' : 'Parent'` (line 406). -/
def reverseRoleOf (role : Option String) : String :=
  if role == some "Parent" then "Child" else "Parent"

/-- Cardinality inversion (lines 407-409): `OneToMany ↔ ManyToOne`,
anything else unchanged. -/
def reverseCardinalityOf (c : Option String) : Option String :=
  if c == some "OneToMany" then some "ManyToOne"
  else if c == some "ManyToOne" then some "OneToMany"
  else c

/-- How an optional cardinality appears inside the synthesized `type`
template string (an absent value prints as `undefined` in JS). -/
def cardText (c : Option String) : String :=
  match c with
  | some s => s
  | none => "undefined"

/-- The target-resolution predicate of the `find` on lines 396-400. -/
def relTargetMatches (target : String) (d : Ent) : Bool :=
  d.name == target || strEndsWith d.name target || strEndsWith target d.name

/-- The relation after its target is rewritten to the resolved entity's
canonical name (line 403). -/
def resolvedRel (r : Rel) (tgtName : String) : Rel :=
  { r with target := tgtName }

/-- The reverse relation pushed onto the resolved target entity
(lines 416-427) for a relation `r` of entity `A`. -/
def synthesizedReverse (A : Ent) (r : Rel) : Rel :=
  { target := A.name
    type := reverseRoleOf r.role ++ "-" ++ cardText (reverseCardinalityOf r.cardinality)
    name := r.name
    role := some (reverseRoleOf r.role)
    cardinality := reverseCardinalityOf r.cardinality
    isTaxonomy := r.isTaxonomy
    isPath := r.isPath
    allowNavigation := r.allowNavigation
    isReverse := true }

/-- Line 403: rewrite slot `j` of entity `i` so its target carries the
resolved entity's canonical name. -/
def rewriteSlot (defs : List Ent) (i j : Nat) (A : Ent) (r : Rel) (t : Nat) : List Ent :=
  defs.set i
    { A with relations := A.relations.set j (resolvedRel r ((defs.getD t default).name)) }

/-- Lines 415-428: append the synthesized reverse of `r` (a relation of
entity `A`) to the entity at index `t`. -/
def appendReverse (defs1 : List Ent) (t : Nat) (A : Ent) (r : Rel) : List Ent :=
  defs1.set t { defs1.getD t default with
    relations := (defs1.getD t default).relations ++ [synthesizedReverse A r] }

/-- The effect of lines 402-429 once relation `r` (at slot `j` of entity
`i`) has resolved to the entity at index `t`: rewrite the slot's target to
the canonical name, then append the synthesized reverse to the resolved
entity unless it already holds a same-named relation back at entity `i`
(the `alreadyHasReverse` check runs after the rewrite, so a resolved
self-relation blocks its own reverse). -/
def addReverse (defs : List Ent) (i j : Nat) (A : Ent) (r : Rel) (t : Nat) : List Ent :=
  if ((rewriteSlot defs i j A r t).getD t default).relations.any
      (fun rel => rel.target == A.name && rel.name == r.name) then
    rewriteSlot defs i j A r t
  else
    appendReverse (rewriteSlot defs i j A r t) t A r

/-- One step of the post-pass: process relation `j` of entity `i`
(lines 394-430). -/
def processOneRelation (defs : List Ent) (i j : Nat) : List Ent :=
  match defs[i]? with
  | none => defs
  | some A =>
    match A.relations[j]? with
    | none => defs
    | some r =>
      match List.findIdx? (relTargetMatches r.target) defs with
      | none => defs
      | some t => addReverse defs i j A r t

/-- Process all relations of entity `i` that are present when the outer
walk reaches it (`entityDef.relations.forEach`, element count fixed at
call time). -/
def processEntityRelations (defs : List Ent) (i : Nat) : List Ent :=
  (List.range ((defs.getD i default).relations).length).foldl
    (fun acc j => processOneRelation acc i j) defs

/-- The whole post-pass (`entityDefinitions.forEach`, lines 392-431). -/
def postProcess (defs : List Ent) : List Ent :=
  (List.range defs.length).foldl (fun acc i => processEntityRelations acc i) defs

end CHVis

namespace CHVis

/-! ### Claim C1: reverse-relation synthesis — infrastructure -/

/-- The entity at index `k` (default-padded lookup). -/
def entAt (defs : List Ent) (k : Nat) : Ent :=
  defs.getD k default

/-- The post-pass preserves list length and every entity's `name`
(relative to the pre-normalization list `pre`). -/
def SameNames (pre s : List Ent) : Prop :=
  s.length = pre.length ∧ ∀ k, (entAt s k).name = (entAt pre k).name

/-- No loaded entity's name is a suffix of another's (this makes the
best-effort suffix resolution of lines 396-400 unambiguous; the spec's
design notes flag ambiguous suffix resolution as order-dependent). -/
def NiceNames (defs : List Ent) : Prop :=
  ∀ i, i < defs.length → ∀ j, j < defs.length → i ≠ j →
    strEndsWith (entAt defs i).name (entAt defs j).name = false

/-- Existence of a relation on entity `t` pointing back at name `nm` with
relation name `n`. -/
def hasBack (s : List Ent) (t : Nat) (nm : String) (n : Option String) : Prop :=
  ∃ r' ∈ (entAt s t).relations, r'.target = nm ∧ r'.name = n

/-- Entities processed so far satisfy the (amended) reverse-relation
property: every non-reverse relation whose target is a loaded entity's
name has a same-named relation pointing back. -/
def processedOK (pre s : List Ent) (k : Nat) : Prop :=
  ∀ i, i < k → ∀ r ∈ (entAt s i).relations, r.isReverse = false →
    ∀ ib, ib < pre.length → r.target = (entAt pre ib).name →
      hasBack s ib (entAt pre i).name r.name

theorem strEndsWith_self (s : String) : strEndsWith s s = true := by
  unfold strEndsWith
  simp [List.isSuffixOf]

theorem entAt_set (s : List Ent) (i : Nat) (e : Ent) (k : Nat) :
    entAt (s.set i e) k = if i = k ∧ i < s.length then e else entAt s k := by
  unfold entAt
  rw [List.getD_eq_getElem?_getD, List.getD_eq_getElem?_getD, List.getElem?_set]
  by_cases h1 : i = k
  · subst h1
    by_cases h2 : i < s.length
    · simp [h2]
    · have hnone : s[i]? = none := by
        rw [List.getElem?_eq_none_iff]
        omega
      simp [h2, hnone]
  · simp [h1]

theorem entAt_eq_getElem (s : List Ent) (k : Nat) (h : k < s.length) :
    entAt s k = s[k] := by
  unfold entAt
  rw [List.getD_eq_getElem?_getD, List.getElem?_eq_getElem h]
  rfl

theorem getElemQ_entAt (s : List Ent) (k : Nat) (h : k < s.length) :
    s[k]? = some (entAt s k) := by
  rw [List.getElem?_eq_getElem h, entAt_eq_getElem s k h]

/-- Under `NiceNames`, distinct indices carry distinct names. -/
theorem niceNames_distinct (pre : List Ent) (hn : NiceNames pre)
    (i j : Nat) (hi : i < pre.length) (hj : j < pre.length) (hij : i ≠ j) :
    (entAt pre i).name ≠ (entAt pre j).name := by
  intro h
  have h2 := hn i hi j hj hij
  rw [h, strEndsWith_self] at h2
  simp at h2

/-- Under `NiceNames`, the resolution predicate applied to entity `i0`'s
name holds only at index `i0`. -/
theorem relTargetMatches_name (pre s : List Ent) (hs : SameNames pre s)
    (hn : NiceNames pre) (i0 : Nat) (h0 : i0 < pre.length)
    (j : Nat) (hj : j < s.length) :
    relTargetMatches (entAt pre i0).name (entAt s j) = (decide (j = i0)) := by
  by_cases hji : j = i0
  · subst hji
    unfold relTargetMatches
    rw [hs.2 j]
    simp [strEndsWith_self]
  · have hjlen : j < pre.length := by
      rw [hs.1] at hj
      exact hj
    have hne : (entAt pre j).name ≠ (entAt pre i0).name :=
      niceNames_distinct pre hn j i0 hjlen h0 hji
    have he1 : strEndsWith (entAt pre j).name (entAt pre i0).name = false :=
      hn j hjlen i0 h0 hji
    have he2 : strEndsWith (entAt pre i0).name (entAt pre j).name = false :=
      hn i0 h0 j hjlen (fun h => hji h.symm)
    unfold relTargetMatches
    rw [hs.2 j, he1, he2]
    simp [hne, hji]

/-- Under `NiceNames`, resolving an entity name finds exactly that
entity. -/
theorem findIdx_resolves (pre s : List Ent) (hs : SameNames pre s)
    (hn : NiceNames pre) (i0 : Nat) (h0 : i0 < pre.length) :
    List.findIdx? (relTargetMatches (entAt pre i0).name) s = some i0 := by
  rw [List.findIdx?_eq_some_iff_getElem]
  have hlen : i0 < s.length := by
    rw [hs.1]
    exact h0
  refine ⟨hlen, ?_, ?_⟩
  · rw [← entAt_eq_getElem s i0 hlen,
      relTargetMatches_name pre s hs hn i0 h0 i0 hlen]
    simp
  · intro j hji
    have hjlen : j < s.length := lt_trans hji hlen
    rw [← entAt_eq_getElem s j hjlen,
      relTargetMatches_name pre s hs hn i0 h0 j hjlen]
    simp
    omega

end CHVis


namespace CHVis

/-- `processOneRelation` either leaves the list unchanged or performs an
`addReverse` step with the entity, relation and resolved index in hand. -/
theorem processOne_eq_cases (s : List Ent) (i j : Nat) :
    processOneRelation s i j = s ∨
    ∃ A r t, s[i]? = some A ∧ A.relations[j]? = some r ∧
      List.findIdx? (relTargetMatches r.target) s = some t ∧
      processOneRelation s i j = addReverse s i j A r t := by
  rcases hA : s[i]? with _ | A
  · left
    simp [processOneRelation, hA]
  · rcases hr : A.relations[j]? with _ | r
    · left
      simp [processOneRelation, hA, hr]
    · rcases hf : List.findIdx? (relTargetMatches r.target) s with _ | t
      · left
        simp [processOneRelation, hA, hr, hf]
      · exact Or.inr ⟨A, r, t, rfl, hr, hf, by simp [processOneRelation, hA, hr, hf]⟩

/-- The two possible outcomes of `addReverse`, with the blocker made
explicit in the first. -/
theorem addReverse_spec (s : List Ent) (i j : Nat) (A : Ent) (r : Rel) (t : Nat) :
    (addReverse s i j A r t = rewriteSlot s i j A r t ∧
      ∃ rel ∈ (entAt (rewriteSlot s i j A r t) t).relations,
        rel.target = A.name ∧ rel.name = r.name) ∨
    addReverse s i j A r t = appendReverse (rewriteSlot s i j A r t) t A r := by
  unfold addReverse
  by_cases hb : ((rewriteSlot s i j A r t).getD t default).relations.any
      (fun rel => rel.target == A.name && rel.name == r.name) = true
  · left
    refine ⟨by rw [if_pos hb], ?_⟩
    obtain ⟨rel, hmem, hp⟩ := List.any_eq_true.mp hb
    rw [Bool.and_eq_true] at hp
    exact ⟨rel, hmem, beq_iff_eq.mp hp.1, beq_iff_eq.mp hp.2⟩
  · right
    rw [if_neg hb]

theorem rewriteSlot_length (s : List Ent) (i j : Nat) (A : Ent) (r : Rel) (t : Nat) :
    (rewriteSlot s i j A r t).length = s.length := by
  unfold rewriteSlot
  exact List.length_set s _ _

theorem appendReverse_length (s1 : List Ent) (t : Nat) (A : Ent) (r : Rel) :
    (appendReverse s1 t A r).length = s1.length := by
  unfold appendReverse
  exact List.length_set s1 _ _

/-- `addReverse` preserves the list's length. -/
theorem addReverse_length (s : List Ent) (i j : Nat) (A : Ent) (r : Rel) (t : Nat) :
    (addReverse s i j A r t).length = s.length := by
  rcases addReverse_spec s i j A r t with ⟨heq, _⟩ | heq <;> rw [heq]
  · exact rewriteSlot_length s i j A r t
  · rw [appendReverse_length, rewriteSlot_length]

/-- `s[i]? = some A` forces `A` to be `entAt s i` (and `i` in range). -/
theorem getElemQ_inv (s : List Ent) (i : Nat) (A : Ent) (hA : s[i]? = some A) :
    i < s.length ∧ A = entAt s i := by
  have hi : i < s.length := by
    by_contra hcon
    rw [List.getElem?_eq_none_iff.mpr (by omega)] at hA
    exact Option.noConfusion hA
  refine ⟨hi, ?_⟩
  have h2 := getElemQ_entAt s i hi
  rw [hA] at h2
  exact Option.some.inj h2

theorem rewriteSlot_names (s : List Ent) (i j : Nat) (A : Ent) (r : Rel) (t : Nat)
    (hA : s[i]? = some A) (k : Nat) :
    (entAt (rewriteSlot s i j A r t) k).name = (entAt s k).name := by
  obtain ⟨hi, hAval⟩ := getElemQ_inv s i A hA
  unfold rewriteSlot
  rw [entAt_set]
  by_cases h1 : i = k ∧ i < s.length
  · simp only [if_pos h1]
    rw [hAval, h1.1]
  · simp only [if_neg h1]

theorem appendReverse_names (s1 : List Ent) (t : Nat) (A : Ent) (r : Rel) (k : Nat) :
    (entAt (appendReverse s1 t A r) k).name = (entAt s1 k).name := by
  unfold appendReverse
  rw [entAt_set]
  by_cases h1 : t = k ∧ t < s1.length
  · simp only [if_pos h1]
    show (entAt s1 t).name = (entAt s1 k).name
    rw [h1.1]
  · simp only [if_neg h1]

/-- `addReverse` preserves every entity's name. -/
theorem addReverse_names (s : List Ent) (i j : Nat) (A : Ent) (r : Rel) (t : Nat)
    (hA : s[i]? = some A) (k : Nat) :
    (entAt (addReverse s i j A r t) k).name = (entAt s k).name := by
  rcases addReverse_spec s i j A r t with ⟨heq, _⟩ | heq <;> rw [heq]
  · exact rewriteSlot_names s i j A r t hA k
  · rw [appendReverse_names, rewriteSlot_names s i j A r t hA k]

/-- `processOneRelation` preserves `SameNames`. -/
theorem sameNames_processOne (pre s : List Ent) (hs : SameNames pre s) (i j : Nat) :
    SameNames pre (processOneRelation s i j) := by
  rcases processOne_eq_cases s i j with heq | ⟨A, r, t, hA, _, _, heq⟩
  · rw [heq]
    exact hs
  · rw [heq]
    refine ⟨?_, ?_⟩
    · rw [addReverse_length]
      exact hs.1
    · intro k
      rw [addReverse_names s i j A r t hA k]
      exact hs.2 k

end CHVis

namespace CHVis

theorem rewriteSlot_relations (s : List Ent) (i j : Nat) (A : Ent) (r : Rel) (t : Nat)
    (k : Nat) :
    (entAt (rewriteSlot s i j A r t) k).relations =
      if i = k ∧ i < s.length then
        A.relations.set j (resolvedRel r ((entAt s t).name))
      else (entAt s k).relations := by
  unfold rewriteSlot
  rw [entAt_set]
  by_cases h1 : i = k ∧ i < s.length
  · simp only [if_pos h1]
    rfl
  · simp only [if_neg h1]

theorem appendReverse_relations (s1 : List Ent) (t : Nat) (A : Ent) (r : Rel) (k : Nat) :
    (entAt (appendReverse s1 t A r) k).relations =
      if t = k ∧ t < s1.length then
        (entAt s1 k).relations ++ [synthesizedReverse A r]
      else (entAt s1 k).relations := by
  unfold appendReverse
  rw [entAt_set]
  by_cases h1 : t = k ∧ t < s1.length
  · simp only [if_pos h1]
    show (entAt s1 t).relations ++ _ = _
    rw [h1.1]
  · simp only [if_neg h1]

/-- A same-named back-relation survives the slot rewrite: the only value
that changes is the processed slot itself, and when that slot is the
witness its target is an entity name, which under `NiceNames` re-resolves
to the same entity and is rewritten to itself. -/
theorem hasBack_rewriteSlot (pre s : List Ent) (hs : SameNames pre s) (hn : NiceNames pre)
    (i j : Nat) (A : Ent) (r : Rel) (t : Nat)
    (hA : s[i]? = some A) (hr : A.relations[j]? = some r)
    (hf : List.findIdx? (relTargetMatches r.target) s = some t)
    (tb i0 : Nat) (h0 : i0 < pre.length) (n : Option String)
    (hhb : hasBack s tb (entAt pre i0).name n) :
    hasBack (rewriteSlot s i j A r t) tb (entAt pre i0).name n := by
  obtain ⟨r', hmem, hrt, hrn⟩ := hhb
  unfold hasBack
  rw [rewriteSlot_relations]
  by_cases h1 : i = tb ∧ i < s.length
  · rw [if_pos h1]
    obtain ⟨hi, hAval⟩ := getElemQ_inv s i A hA
    have hmem' : r' ∈ A.relations := by
      rw [hAval, h1.1]
      exact hmem
    obtain ⟨m, hm, hget⟩ := List.mem_iff_getElem.mp hmem'
    by_cases hmj : m = j
    · -- the witness is the rewritten slot itself: its target is an entity
      -- name, which re-resolves to the same entity
      subst hmj
      have hrval : A.relations[m] = r := by
        have h2 := List.getElem?_eq_getElem hm
        rw [hr] at h2
        exact (Option.some.inj h2).symm
      have hreq : r' = r := by
        rw [← hget, hrval]
      have hft : List.findIdx? (relTargetMatches ((entAt pre i0).name)) s = some t := by
        rw [← hrt, hreq]
        exact hf
      have hti : t = i0 := by
        have h3 := findIdx_resolves pre s hs hn i0 h0
        rw [hft] at h3
        exact Option.some.inj h3
      refine ⟨resolvedRel r ((entAt s t).name), ?_, ?_, ?_⟩
      · rw [List.mem_iff_getElem]
        refine ⟨m, by simpa using hm, ?_⟩
        rw [List.getElem_set]
        simp
      · show (entAt s t).name = (entAt pre i0).name
        rw [hti, hs.2 i0]
      · show r.name = n
        rw [← hreq]
        exact hrn
    · refine ⟨r', ?_, hrt, hrn⟩
      rw [List.mem_iff_getElem]
      refine ⟨m, by simpa using hm, ?_⟩
      rw [List.getElem_set]
      simp only [if_neg (Ne.symm hmj)]
      exact hget
  · rw [if_neg h1]
    exact ⟨r', hmem, hrt, hrn⟩

end CHVis

namespace CHVis

/-- A back-relation survives an append (appending only grows relation
lists). -/
theorem hasBack_appendReverse (s1 : List Ent) (t : Nat) (A : Ent) (r : Rel)
    (tb : Nat) (nm : String) (n : Option String)
    (hhb : hasBack s1 tb nm n) : hasBack (appendReverse s1 t A r) tb nm n := by
  obtain ⟨r', hmem, hrt, hrn⟩ := hhb
  unfold hasBack
  rw [appendReverse_relations]
  by_cases h1 : t = tb ∧ t < s1.length
  · rw [if_pos h1]
    exact ⟨r', List.mem_append_left _ hmem, hrt, hrn⟩
  · rw [if_neg h1]
    exact ⟨r', hmem, hrt, hrn⟩

/-- A back-relation to a loaded entity survives a full
`processOneRelation` step. -/
theorem hasBack_processOne (pre s : List Ent) (hs : SameNames pre s) (hn : NiceNames pre)
    (a b : Nat) (tb i0 : Nat) (h0 : i0 < pre.length) (n : Option String)
    (hhb : hasBack s tb (entAt pre i0).name n) :
    hasBack (processOneRelation s a b) tb (entAt pre i0).name n := by
  rcases processOne_eq_cases s a b with heq | ⟨A, r, t, hA, hr, hf, heq⟩
  · rw [heq]
    exact hhb
  · rw [heq]
    have h1 := hasBack_rewriteSlot pre s hs hn a b A r t hA hr hf tb i0 h0 n hhb
    rcases addReverse_spec s a b A r t with ⟨heq2, _⟩ | heq2 <;> rw [heq2]
    · exact h1
    · exact hasBack_appendReverse _ t A r tb _ n h1

end CHVis

namespace CHVis

theorem getD_eq_getElem {α : Type _} [Inhabited α] (l : List α) (m : Nat)
    (h : m < l.length) : l.getD m default = l[m] := by
  rw [List.getD_eq_getElem?_getD, List.getElem?_eq_getElem h]
  rfl

theorem getD_append_left {α : Type _} [Inhabited α] (l l2 : List α) (m : Nat)
    (h : m < l.length) : (l ++ l2).getD m default = l.getD m default := by
  rw [List.getD_eq_getElem?_getD, List.getD_eq_getElem?_getD,
    List.getElem?_append_left h]

theorem getD_set_ne {α : Type _} [Inhabited α] (l : List α) (c : Nat) (a : α)
    (j : Nat) (h : c ≠ j) : (l.set c a).getD j default = l.getD j default := by
  rw [List.getD_eq_getElem?_getD, List.getD_eq_getElem?_getD,
    List.getElem?_set_ne h]

theorem getD_set_self {α : Type _} [Inhabited α] (l : List α) (c : Nat) (a : α)
    (h : c < l.length) : (l.set c a).getD c default = a := by
  rw [List.getD_eq_getElem?_getD, List.getElem?_set]
  simp [h]

/-- The back-relation obligation for slot `j` of entity `k`: if the
slot's (rewritten) target is a loaded entity's name, that entity carries
a relation back at entity `k` with the same relation name. -/
def slotOK (pre s : List Ent) (k j : Nat) : Prop :=
  ∀ ib, ib < pre.length →
    ((entAt s k).relations.getD j default).target = (entAt pre ib).name →
      hasBack s ib (entAt pre k).name ((entAt s k).relations.getD j default).name

/-- Shape of entity `k`'s relation list after its own slot `c` is
processed: unchanged, the slot rewritten, or the slot rewritten plus a
synthesized reverse appended (when the relation resolved to `k`
itself). -/
theorem relations_processOne_self (s : List Ent) (k c : Nat) :
    (entAt (processOneRelation s k c) k).relations = (entAt s k).relations ∨
    ∃ rr x, x.isReverse = true ∧
      ((entAt (processOneRelation s k c) k).relations = (entAt s k).relations.set c rr ∨
        (entAt (processOneRelation s k c) k).relations =
          (entAt s k).relations.set c rr ++ [x]) := by
  rcases processOne_eq_cases s k c with heq | ⟨A, r, t, hA, hr, hf, heq⟩
  · rw [heq]
    left
    rfl
  · rw [heq]
    obtain ⟨hk, hAval⟩ := getElemQ_inv s k A hA
    right
    refine ⟨resolvedRel r ((entAt s t).name), synthesizedReverse A r, rfl, ?_⟩
    have hrw : (entAt (rewriteSlot s k c A r t) k).relations =
        (entAt s k).relations.set c (resolvedRel r ((entAt s t).name)) := by
      rw [rewriteSlot_relations]
      rw [if_pos ⟨rfl, hk⟩, hAval]
    rcases addReverse_spec s k c A r t with ⟨heq2, _⟩ | heq2 <;> rw [heq2]
    · left
      exact hrw
    · rw [appendReverse_relations]
      by_cases h1 : t = k ∧ t < (rewriteSlot s k c A r t).length
      · rw [if_pos h1, hrw]
        right
        rfl
      · rw [if_neg h1, hrw]
        left
        rfl

/-- Relations of an entity other than the processed one only gain
synthesized reverses. -/
theorem mem_relations_processOne_other (s : List Ent) (a b k : Nat) (hka : k ≠ a)
    (r' : Rel) (hmem : r' ∈ (entAt (processOneRelation s a b) k).relations) :
    r' ∈ (entAt s k).relations ∨ r'.isReverse = true := by
  rcases processOne_eq_cases s a b with heq | ⟨A, r, t, hA, hr, hf, heq⟩
  · rw [heq] at hmem
    exact Or.inl hmem
  · rw [heq] at hmem
    have hrw : (entAt (rewriteSlot s a b A r t) k).relations =
        (entAt s k).relations := by
      rw [rewriteSlot_relations, if_neg]
      intro hcon
      exact hka hcon.1.symm
    rcases addReverse_spec s a b A r t with ⟨heq2, _⟩ | heq2 <;> rw [heq2] at hmem
    · rw [hrw] at hmem
      exact Or.inl hmem
    · rw [appendReverse_relations] at hmem
      by_cases h1 : t = k ∧ t < (rewriteSlot s a b A r t).length
      · rw [if_pos h1, hrw] at hmem
        rcases List.mem_append.mp hmem with h2 | h2
        · exact Or.inl h2
        · right
          rw [List.mem_singleton.mp h2]
          rfl
      · rw [if_neg h1, hrw] at hmem
        exact Or.inl hmem

/-- Entity `k`'s relation-list length never shrinks under a step on its
own slot. -/
theorem relations_length_mono_self (s : List Ent) (k c : Nat) :
    (entAt s k).relations.length ≤ (entAt (processOneRelation s k c) k).relations.length := by
  rcases relations_processOne_self s k c with heq | ⟨rr, x, _, heq | heq⟩ <;> rw [heq] <;>
    simp [List.length_set]

/-- Value of an already-settled slot (below the captured count, not the
one being processed) is unchanged by a step on slot `c`. -/
theorem slotVal_processOne_self (s : List Ent) (k c j : Nat) (hne : j ≠ c)
    (hj : j < (entAt s k).relations.length) :
    ((entAt (processOneRelation s k c) k).relations.getD j default) =
      ((entAt s k).relations.getD j default) := by
  rcases relations_processOne_self s k c with heq | ⟨rr, x, _, heq | heq⟩ <;> rw [heq]
  · exact getD_set_ne _ c rr j (fun h => hne h.symm)
  · rw [getD_append_left]
    · exact getD_set_ne _ c rr j (fun h => hne h.symm)
    · rw [List.length_set]
      exact hj

end CHVis

namespace CHVis

/-- Processing slot `c` of entity `k` establishes the slot's
back-relation obligation: the target either fails to resolve (and then
cannot be a loaded entity's name), or resolves — under `NiceNames`,
uniquely — and the blocker check or the appended synthesized reverse
provides the same-named back relation. -/
theorem slotOK_establish (pre s : List Ent) (hs : SameNames pre s) (hn : NiceNames pre)
    (k c : Nat) (hk : k < pre.length) (hc : c < (entAt s k).relations.length) :
    slotOK pre (processOneRelation s k c) k c := by
  have hklen : k < s.length := by
    rw [hs.1]
    exact hk
  have hA : s[k]? = some (entAt s k) := getElemQ_entAt s k hklen
  obtain ⟨rD, hrDdef⟩ : ∃ rD, (entAt s k).relations.getD c default = rD := ⟨_, rfl⟩
  have hrg : (entAt s k).relations[c]? = some rD := by
    rw [← hrDdef, List.getElem?_eq_getElem hc, getD_eq_getElem _ _ hc]
  rcases hf : List.findIdx? (relTargetMatches rD.target) s with _ | t
  · have hres : processOneRelation s k c = s := by
      simp [processOneRelation, hA, hrg, hf]
    rw [hres]
    intro ib hib htg
    rw [hrDdef] at htg
    exfalso
    have h2 := findIdx_resolves pre s hs hn ib hib
    rw [← htg, hf] at h2
    exact Option.noConfusion h2
  · have hres : processOneRelation s k c = addReverse s k c (entAt s k) rD t := by
      simp [processOneRelation, hA, hrg, hf]
    have ht : t < s.length := by
      obtain ⟨h2, _, _⟩ := List.findIdx?_eq_some_iff_getElem.mp hf
      exact h2
    have htpre : t < pre.length := by
      rw [← hs.1]
      exact ht
    have hslot : ((entAt (addReverse s k c (entAt s k) rD t) k).relations.getD c default) =
        resolvedRel rD ((entAt s t).name) := by
      rcases addReverse_spec s k c (entAt s k) rD t with ⟨heq2, _⟩ | heq2 <;> rw [heq2]
      · rw [rewriteSlot_relations, if_pos ⟨rfl, hklen⟩]
        exact getD_set_self _ c _ hc
      · rw [appendReverse_relations]
        by_cases h1 : t = k ∧ t < (rewriteSlot s k c (entAt s k) rD t).length
        · rw [if_pos h1, rewriteSlot_relations, if_pos ⟨rfl, hklen⟩, getD_append_left]
          · exact getD_set_self _ c _ hc
          · rw [List.length_set]
            exact hc
        · rw [if_neg h1, rewriteSlot_relations, if_pos ⟨rfl, hklen⟩]
          exact getD_set_self _ c _ hc
    rw [hres]
    intro ib hib htg
    rw [hslot] at htg ⊢
    have htg3 : (entAt pre t).name = (entAt pre ib).name := by
      rw [← hs.2 t]
      exact htg
    have hib_t : ib = t := by
      by_contra hcon
      exact (niceNames_distinct pre hn t ib htpre hib (fun h => hcon h.symm)) htg3
    subst hib_t
    have hnamek : (entAt s k).name = (entAt pre k).name := hs.2 k
    rcases addReverse_spec s k c (entAt s k) rD ib
      with ⟨heq2, hblocker⟩ | heq2 <;> rw [heq2]
    · obtain ⟨rel, hmem, hrt, hrn⟩ := hblocker
      refine ⟨rel, hmem, ?_, ?_⟩
      · rw [hrt, hnamek]
      · exact hrn
    · unfold hasBack
      rw [appendReverse_relations]
      have h1 : ib = ib ∧ ib < (rewriteSlot s k c (entAt s k) rD ib).length := by
        refine ⟨rfl, ?_⟩
        rw [rewriteSlot_length]
        exact ht
      rw [if_pos h1]
      refine ⟨synthesizedReverse (entAt s k) rD,
        List.mem_append_right _ (List.mem_singleton_self _), ?_, rfl⟩
      show (entAt s k).name = (entAt pre k).name
      exact hnamek

/-- Obligations of already-processed entities survive a step on entity
`k`'s slots. -/
theorem processedOK_processOne (pre s : List Ent) (hs : SameNames pre s)
    (hn : NiceNames pre) (k b : Nat) (hk : k ≤ pre.length)
    (hpo : processedOK pre s k) :
    processedOK pre (processOneRelation s k b) k := by
  intro i hik r' hmem hrev ib hib htg
  rcases mem_relations_processOne_other s k b i (by omega) r' hmem with hold | hrevT
  · exact hasBack_processOne pre s hs hn k b ib i (by omega) r'.name
      (hpo i hik r' hold hrev ib hib htg)
  · rw [hrevT] at hrev
    exact absurd hrev (by simp)

end CHVis

namespace CHVis

/-- Invariant along the inner relation walk of entity `k` (`len` is the
captured relation count, `c` the number of slots already processed). -/
def InnerInv (pre : List Ent) (k len c : Nat) (s : List Ent) : Prop :=
  SameNames pre s ∧
  processedOK pre s k ∧
  len ≤ (entAt s k).relations.length ∧
  (∀ m, len ≤ m → m < (entAt s k).relations.length →
      ((entAt s k).relations.getD m default).isReverse = true) ∧
  (∀ j', j' < c → j' < len → slotOK pre s k j')

theorem innerInv_step (pre : List Ent) (hn : NiceNames pre) (k len c : Nat)
    (hk : k < pre.length) (hc : c < len) (s : List Ent)
    (h : InnerInv pre k len c s) :
    InnerInv pre k len (c + 1) (processOneRelation s k c) := by
  obtain ⟨hs, hpo, hlen, htail, hdone⟩ := h
  have hc' : c < (entAt s k).relations.length := lt_of_lt_of_le hc hlen
  refine ⟨sameNames_processOne pre s hs k c,
    processedOK_processOne pre s hs hn k c (le_of_lt hk) hpo,
    le_trans hlen (relations_length_mono_self s k c), ?_, ?_⟩
  · intro m hm hmlt
    rcases relations_processOne_self s k c with heq | ⟨rr, x, hxrev, heq | heq⟩ <;>
      rw [heq] at hmlt ⊢
    · exact htail m hm hmlt
    · rw [getD_set_ne _ c rr m (by omega)]
      rw [List.length_set] at hmlt
      exact htail m hm hmlt
    · rw [List.length_append, List.length_set, List.length_singleton] at hmlt
      by_cases hmo : m < (entAt s k).relations.length
      · rw [getD_append_left _ _ m (by rw [List.length_set]; exact hmo),
          getD_set_ne _ c rr m (by omega)]
        exact htail m hm hmo
      · have hmeq : m = ((entAt s k).relations.set c rr).length := by
          rw [List.length_set]
          omega
        have hx : ((entAt s k).relations.set c rr ++ [x]).getD m default = x := by
          rw [List.getD_eq_getElem?_getD, hmeq, List.getElem?_concat_length]
          rfl
        rw [hx]
        exact hxrev
  · intro j' hj1 hj2
    by_cases hjc : j' = c
    · subst hjc
      exact slotOK_establish pre s hs hn k j' hk hc'
    · have hj'len : j' < (entAt s k).relations.length := lt_of_lt_of_le hj2 hlen
      have hsl := hdone j' (by omega) hj2
      intro ib hib htg
      have hval := slotVal_processOne_self s k c j' hjc hj'len
      rw [hval] at htg ⊢
      exact hasBack_processOne pre s hs hn k c ib k hk _ (hsl ib hib htg)

theorem innerFold_inv (pre : List Ent) (hn : NiceNames pre) (k len : Nat)
    (hk : k < pre.length) :
    ∀ (m c : Nat), c + m = len → ∀ s, InnerInv pre k len c s →
      InnerInv pre k len len
        ((List.range' c m).foldl (fun acc j => processOneRelation acc k j) s) := by
  intro m
  induction m with
  | zero =>
    intro c hc s h
    have hceq : c = len := by omega
    subst hceq
    exact h
  | succ m ih =>
    intro c hc s h
    rw [List.range'_succ, List.foldl_cons]
    exact ih (c + 1) (by omega) _ (innerInv_step pre hn k len c hk (by omega) s h)

/-- Walking all (captured) relations of entity `k` extends the processed
prefix from `k` to `k + 1`. -/
theorem processEntityRelations_inv (pre : List Ent) (hn : NiceNames pre) (k : Nat)
    (hk : k < pre.length) (s : List Ent) (hs : SameNames pre s)
    (hpo : processedOK pre s k) :
    SameNames pre (processEntityRelations s k) ∧
      processedOK pre (processEntityRelations s k) (k + 1) := by
  have hstart : InnerInv pre k ((entAt s k).relations.length) 0 s := by
    refine ⟨hs, hpo, le_refl _, ?_, ?_⟩
    · intro m hm hmlt
      omega
    · intro j' hj _
      omega
  have hend := innerFold_inv pre hn k ((entAt s k).relations.length) hk
    ((entAt s k).relations.length) 0 (by omega) s hstart
  have hconn : processEntityRelations s k =
      (List.range' 0 ((entAt s k).relations.length)).foldl
        (fun acc j => processOneRelation acc k j) s := by
    unfold processEntityRelations
    rw [List.range_eq_range']
    rfl
  rw [hconn]
  obtain ⟨hs', hpo', hlen', htail', hdone'⟩ := hend
  refine ⟨hs', ?_⟩
  intro i hik r' hmem hrev ib hib htg
  by_cases hikk : i < k
  · exact hpo' i hikk r' hmem hrev ib hib htg
  · have hieq : i = k := by omega
    subst hieq
    obtain ⟨m, hm, hget⟩ := List.mem_iff_getElem.mp hmem
    by_cases hmlen : m < (entAt s i).relations.length
    · have hsl := hdone' m hmlen hmlen
      have hval : ((entAt ((List.range' 0 ((entAt s i).relations.length)).foldl
          (fun acc j => processOneRelation acc i j) s) i).relations.getD m default) = r' := by
        rw [getD_eq_getElem _ _ hm, hget]
      have h2 := hsl ib hib (by rw [hval]; exact htg)
      rw [hval] at h2
      exact h2
    · have h3 := htail' m (by omega) hm
      rw [getD_eq_getElem _ _ hm, hget] at h3
      rw [h3] at hrev
      exact absurd hrev (by simp)

theorem outerFold_inv (pre : List Ent) (hn : NiceNames pre) :
    ∀ (m c : Nat), c + m = pre.length → ∀ s, SameNames pre s → processedOK pre s c →
      SameNames pre ((List.range' c m).foldl (fun acc i => processEntityRelations acc i) s) ∧
      processedOK pre
        ((List.range' c m).foldl (fun acc i => processEntityRelations acc i) s) (c + m) := by
  intro m
  induction m with
  | zero =>
    intro c hc s hs hpo
    exact ⟨hs, hpo⟩
  | succ m ih =>
    intro c hc s hs hpo
    rw [List.range'_succ, List.foldl_cons]
    obtain ⟨hs', hpo'⟩ := processEntityRelations_inv pre hn c (by omega) s hs hpo
    have h2 := ih (c + 1) (by omega) _ hs' hpo'
    refine ⟨h2.1, ?_⟩
    have harith : c + 1 + m = c + (m + 1) := by omega
    rw [← harith]
    exact h2.2

/-- The post-pass satisfies the processed-entities property for the whole
list. -/
theorem postProcess_OK (pre : List Ent) (hn : NiceNames pre) :
    SameNames pre (postProcess pre) ∧ processedOK pre (postProcess pre) pre.length := by
  have hconn : postProcess pre =
      (List.range' 0 pre.length).foldl (fun acc i => processEntityRelations acc i) pre := by
    unfold postProcess
    rw [List.range_eq_range']
  rw [hconn]
  have h := outerFold_inv pre hn pre.length 0 (by omega) pre ⟨rfl, fun _ => rfl⟩
    (by intro i hi; omega)
  exact ⟨h.1, by simpa using h.2⟩

end CHVis

namespace CHVis

/-- Claim C1 as stated: after normalization, every non-reverse relation
A→B has a reverse B→A with inverted role and cardinality, unless B
already had a same-named relation to A before synthesis. -/
def claimReverseSymmetry (pre : List Ent) : Prop :=
  ∀ ia, ia < pre.length → ∀ ib, ib < pre.length →
    ∀ r ∈ (entAt (postProcess pre) ia).relations,
      r.isReverse = false →
      r.target = (entAt (postProcess pre) ib).name →
      ((∃ r' ∈ (entAt (postProcess pre) ib).relations,
          r'.target = (entAt (postProcess pre) ia).name ∧
          r'.role = some (reverseRoleOf r.role) ∧
          r'.cardinality = reverseCardinalityOf r.cardinality) ∨
        (∃ r0 ∈ (entAt pre ib).relations,
          r0.target = (entAt pre ia).name ∧ r0.name = r.name))

instance (defs : List Ent) : Decidable (NiceNames defs) := by
  unfold NiceNames
  infer_instance

instance (pre : List Ent) : Decidable (claimReverseSymmetry pre) := by
  unfold claimReverseSymmetry
  haveI hbody : ∀ (ia ib : Nat) (r : Rel), Decidable
      ((∃ r' ∈ (entAt (postProcess pre) ib).relations,
          r'.target = (entAt (postProcess pre) ia).name ∧
          r'.role = some (reverseRoleOf r.role) ∧
          r'.cardinality = reverseCardinalityOf r.cardinality) ∨
        (∃ r0 ∈ (entAt pre ib).relations,
          r0.target = (entAt pre ia).name ∧ r0.name = r.name)) :=
    fun _ _ _ => inferInstance
  infer_instance

/-- The pre-normalization list refuting C1: `A` declares a Parent
relation `r` to `B`; the reverse synthesized on `B` (target `"A"`) is
itself re-resolved while `B` is walked, and — because `"XA"` comes first
and `"XA"` ends with `"A"` — its target is rewritten to `"XA"`, leaving
`B` with no relation back to `A` at all. -/
def cexRelAB : Rel :=
  { target := "B"
    type := "Parent-OneToMany"
    name := some "r"
    role := some "Parent"
    cardinality := some "OneToMany" }

def cexPre : List Ent :=
  [{ id := 0, name := "XA" },
   { id := 1, name := "A", relations := [cexRelAB] },
   { id := 2, name := "B" }]

/-- C1 fails on the code: on `cexPre`, entity `A`'s non-reverse relation
targets `B`, `B` had no prior relation to `A`, yet after normalization
`B`'s only relation targets `"XA"` (the synthesized reverse was hijacked
by suffix resolution), so no reverse `B→A` exists. -/
theorem claimReverseSymmetry_false : ¬ claimReverseSymmetry cexPre := by
  decide

/-- Amended C1: assume no entity name is a suffix of another's (making
target resolution unambiguous).  Then after normalization every
non-reverse relation of entity `ia` targeting entity `ib`'s name has a
relation on `ib` pointing back at `ia`'s name with the same relation
name.  (When synthesis fires, the code gives that relation role
`invert(R)`, cardinality `invert(C)` and `isReverse = true`; synthesis is
suppressed whenever a same-named relation back at `ia` is present at
processing time — whether pre-existing or synthesized earlier in the
pass — so the role/cardinality of the surviving back-relation is not
guaranteed in general.) -/
theorem reverseRelation_backlink (pre : List Ent) (hn : NiceNames pre)
    (ia ib : Nat) (ha : ia < pre.length) (hb : ib < pre.length) (r : Rel)
    (hr : r ∈ (entAt (postProcess pre) ia).relations) (hrev : r.isReverse = false)
    (htg : r.target = (entAt pre ib).name) :
    ∃ r' ∈ (entAt (postProcess pre) ib).relations,
      r'.target = (entAt pre ia).name ∧ r'.name = r.name :=
  (postProcess_OK pre hn).2 ia ha r hr hrev ib hb htg

/-- A two-entity list with suffix-free names for the witness. -/
def wpre : List Ent :=
  [{ id := 1, name := "Alpha", relations := [{
      target := "Beta"
      type := "Parent-OneToMany"
      name := some "r"
      role := some "Parent"
      cardinality := some "OneToMany" }] },
   { id := 2, name := "Beta" }]

/-- Witness for `reverseRelation_backlink` on `wpre`. -/
theorem reverseRelation_backlink_witness :
    NiceNames wpre ∧
      ∃ r' ∈ (entAt (postProcess wpre) 1).relations,
        r'.target = (entAt wpre 0).name ∧
        r'.name = ((entAt wpre 0).relations.getD 0 default).name :=
  ⟨by decide, reverseRelation_backlink wpre (by decide) 0 1 (by decide) (by decide)
    ((entAt wpre 0).relations.getD 0 default) (by decide) (by decide) (by decide)⟩

end CHVis

namespace CHVis

/-! ### Layout engine and interaction state

Coordinates are rationals; the irrational primitives are supplied by a
`Geom` oracle.  `Math.random` call sites consume successive values of the
oracle's `rand` stream.  The node-position `Map<number, {x, y}>` becomes
an association list with JS `Map` semantics: `set` updates an existing
key in place (preserving insertion order) or appends, and iteration
follows insertion order. -/

/-- A 2D point `{x, y}`. -/
structure Point where
  x : ℚ
  y : ℚ
deriving DecidableEq, Repr

/-- Oracle for `Math.sqrt`, `Math.cos`, `Math.sin`, `Math.atan2`,
`Math.PI` and the `Math.random` stream. -/
structure Geom where
  sqrt : ℚ → ℚ
  cos : ℚ → ℚ
  sin : ℚ → ℚ
  atan2 : ℚ → ℚ → ℚ
  pi : ℚ
  rand : Nat → ℚ

/-- The node-position map. -/
abbrev PosMap : Type := List (Nat × Point)

/-- `Map.get`: first (only) entry with the key. -/
def mapGet (m : PosMap) (k : Nat) : Option Point :=
  match List.find? (fun p => p.1 == k) m with
  | some p => some p.2
  | none => none

/-- `Map.set`: replace in place if present, else append. -/
def mapSet : PosMap → Nat → Point → PosMap
  | [], k, v => [(k, v)]
  | (k', v') :: rest, k, v =>
    if k' = k then (k, v) :: rest else (k', v') :: mapSet rest k v

/-- The keys of the map in insertion order. -/
def mapKeys (m : PosMap) : List Nat :=
  m.map Prod.fst

/-- `Math.max(lo, Math.min(hi, v))`. -/
def clampB (lo hi v : ℚ) : ℚ :=
  max lo (min hi v)

/-- `nodeRadius * 2.8` with `nodeRadius = 30`. -/
def minDistance : ℚ := 30 * (14/5)

/-! #### `resolveInitialOverlaps` (lines 460-524)

The two `for (const [id, pos] of map.entries())` loops iterate the live
map: the inner loop reads `pos2` fresh from the map, while `pos1` is the
value captured when the outer iterator yielded it and goes stale if `id1`
is moved during the inner sweep — both captured faithfully below. -/

/-- The body of the inner pair loop for a fixed outer entry
`(id1, pos1)`. -/
def collideStep (g : Geom) (id1 : Nat) (pos1 : Point) (st : PosMap × Bool)
    (id2 : Nat) : PosMap × Bool :=
  if id2 ≤ id1 then st
  else
    match mapGet st.1 id2 with
    | none => st
    | some pos2 =>
      let dx := pos1.x - pos2.x
      let dy := pos1.y - pos2.y
      let distance := g.sqrt (dx * dx + dy * dy)
      if distance < minDistance then
        let angle := g.atan2 dy dx
        let pushDistance := (minDistance - distance) / 2 + 15
        let newPos1 : Point := ⟨clampB 80 1120 (pos1.x + g.cos angle * pushDistance),
                                clampB 80 720 (pos1.y + g.sin angle * pushDistance)⟩
        let newPos2 : Point := ⟨clampB 80 1120 (pos2.x - g.cos angle * pushDistance),
                                clampB 80 720 (pos2.y - g.sin angle * pushDistance)⟩
        (mapSet (mapSet st.1 id1 newPos1) id2 newPos2, true)
      else st

/-- The outer-loop body: capture `pos1` at yield time, then run the inner
pair loop. -/
def sweepOuterStep (g : Geom) (keys : List Nat) (st : PosMap × Bool)
    (id1 : Nat) : PosMap × Bool :=
  match mapGet st.1 id1 with
  | none => st
  | some pos1 => keys.foldl (collideStep g id1 pos1) st

/-- One full sweep over all pairs (`hasOverlaps` starts `false` and is
set when any pair is pushed apart). -/
def sweep (g : Geom) (m : PosMap) : PosMap × Bool :=
  (mapKeys m).foldl (sweepOuterStep g (mapKeys m)) (m, false)

/-- The `while (hasOverlaps && iterations < maxIterations)` loop; returns
the final map, the number of sweeps run, and the final `hasOverlaps`
flag. -/
def sweepLoop (g : Geom) : Nat → PosMap → PosMap × Nat × Bool
  | 0, m => (m, 0, true)
  | k + 1, m =>
    let r := sweep g m
    if r.2 then
      let r2 := sweepLoop g k r.1
      (r2.1, r2.2.1 + 1, r2.2.2)
    else (r.1, 1, false)

/-- `resolveInitialOverlaps` (cap 30). -/
def resolveInitialOverlaps (g : Geom) (m : PosMap) : PosMap × Nat × Bool :=
  sweepLoop g 30 m

end CHVis

namespace CHVis

/-! #### `calculateInitialPosition` (lines 527-595) and the
`getNodePosition` fallback (lines 1086-1144) -/

/-- `Math.ceil(Math.sqrt(q))` for a rational `q`: the least natural whose
square is at least `q`. -/
def ceilSqrtQ (q : ℚ) : Nat :=
  if q ≤ 0 then 0 else Nat.sqrt (Int.toNat ⌈q⌉ - 1) + 1

/-- `allEntities.findIndex(e => e.id === entity.id)` (yields `-1` when
absent, as in JS). -/
def findIndexById (allEntities : List Ent) (entity : Ent) : Int :=
  match List.findIdx? (fun e => e.id == entity.id) allEntities with
  | some n => (n : Int)
  | none => -1

/-- `calculateInitialPosition`: spiral / grid / corner placement with
jitter, clamped to `[100, 1100] × [100, 700]`.  `r1`, `r2` are the two
`Math.random()` draws. -/
def calculateInitialPosition (g : Geom) (r1 r2 : ℚ) (entity : Ent)
    (allEntities : List Ent) : Point :=
  let index : Int := findIndexById allEntities entity
  let total : Nat := allEntities.length
  if total = 1 then ⟨600, 400⟩
  else
    let position : Point :=
      if (index : ℚ) < (total : ℚ) * (6/10) then
        let spiralRadius : ℚ := 80 + (index : ℚ) * 20
        let spiralAngle : ℚ := (index : ℚ) * (8/10)
        ⟨600 + spiralRadius * g.cos spiralAngle, 400 + spiralRadius * g.sin spiralAngle⟩
      else if (index : ℚ) < (total : ℚ) * (9/10) then
        let gridIndex : Int := index - ⌊(total : ℚ) * (6/10)⌋
        let cols : Nat := ceilSqrtQ ((total : ℚ) * (4/10))
        let col : Int := gridIndex.tmod cols
        let row : Int := gridIndex.fdiv cols
        let spacing : ℚ := max ((30 * (5/2)) * (13/10)) 200
        ⟨150 + (col : ℚ) * spacing, 150 + (row : ℚ) * spacing⟩
      else
        let cornerIndex : Int := index - ⌊(total : ℚ) * (9/10)⌋
        let corners : List Point := [⟨100, 100⟩, ⟨1100, 100⟩, ⟨100, 700⟩, ⟨1100, 700⟩]
        let corner := corners.getD (cornerIndex.tmod 4).toNat ⟨100, 100⟩
        let offset : ℚ := ((cornerIndex.fdiv 4) : ℚ) * 80
        ⟨corner.x + (if cornerIndex.tmod 2 = 0 then offset else -offset),
          corner.y + (if cornerIndex.tmod 2 = 1 then offset else -offset)⟩
    let p1 : Point := ⟨clampB 100 1100 position.x, clampB 100 700 position.y⟩
    let p2 : Point := ⟨p1.x + (r1 - 1/2) * 15, p1.y + (r2 - 1/2) * 15⟩
    ⟨clampB 100 1100 p2.x, clampB 100 700 p2.y⟩

/-- The `getNodePosition` fallback grid (the memo cache is keyed by
`(entity.id, allEntities.length)` and recreated whenever `definitions` or
`nodePositions` change identity, so it is observationally a pure
function; the explicit drag/arrangement map always wins). -/
def getNodePosition (nodePositions : PosMap) (entity : Ent)
    (allEntities : List Ent) : Point :=
  match mapGet nodePositions entity.id with
  | some p => p
  | none =>
    let index : Int := findIndexById allEntities entity
    let total : Nat := allEntities.length
    if total = 1 then ⟨600, 400⟩
    else
      let cols : Nat := ceilSqrtQ ((total : ℚ) * (18/10))
      let col : Int := index.tmod cols
      let row : Int := index.fdiv cols
      let spacing : ℚ := min 180 (max 120 (1200 / (cols : ℚ)))
      let x : ℚ := 150 + (col : ℚ) * spacing
      let y : ℚ := 150 + (row : ℚ) * spacing
      let randomSeed : Nat := entity.id % 1000
      let offsetX : ℚ := ((randomSeed % 60 : Nat) : ℚ) - 30
      let offsetY : ℚ := ((randomSeed * 7 % 60 : Nat) : ℚ) - 30
      ⟨clampB 80 1120 (x + offsetX), clampB 80 720 (y + offsetY)⟩

/-! #### `getEntityConnections` (lines 596-632) -/

/-- Direct + reverse neighbor computation.  The per-entity memo cache is
keyed by id and recreated whenever `definitions` changes, so it is
observationally pure.  Only the first 5 relations of each other entity
are scanned for reverse neighbors (`def.relations.slice(0, 5)`). -/
def getEntityConnections (defs : List Ent) (entityDef : Ent) : List Ent :=
  let direct := entityDef.relations.foldl
    (fun (acc : List Ent × List String) rel =>
      match List.find? (fun d => d.name == rel.target || toString d.id == rel.target) defs with
      | some targetEntity =>
        if acc.2.contains targetEntity.name then acc
        else (acc.1 ++ [targetEntity], acc.2 ++ [targetEntity.name])
      | none => acc)
    ([], [])
  let both := defs.foldl
    (fun (acc : List Ent × List String) d =>
      (d.relations.take 5).foldl
        (fun (acc : List Ent × List String) rel =>
          if (rel.target == entityDef.name || rel.target == toString entityDef.id)
              && !(acc.2.contains d.name) then
            (acc.1 ++ [d], acc.2 ++ [d.name])
          else acc)
        acc)
    direct
  both.1

end CHVis

namespace CHVis

/-! #### `arrangeConnectedNodesInCircle` (lines 652-741)

The relax loop here works on a plain array of position records mutated in
place, so unlike `resolveInitialOverlaps` both elements of a pair are
read fresh. -/

/-- Pair check/push inside the circle-arrangement relaxation (clamped to
the `[40, 1160] × [40, 760]` SVG bounds). -/
def circleStep (g : Geom) (i : Nat) (st : List (Ent × Point) × Bool)
    (j : Nat) : List (Ent × Point) × Bool :=
  match st.1[i]?, st.1[j]? with
  | some ep1, some ep2 =>
    let pos1 := ep1.2
    let pos2 := ep2.2
    let dx := pos1.x - pos2.x
    let dy := pos1.y - pos2.y
    let distance := g.sqrt (dx * dx + dy * dy)
    if distance < minDistance then
      let angle := g.atan2 dy dx
      let pushDistance := (minDistance - distance) / 2 + 10
      let p1 : Point := ⟨clampB 40 1160 (pos1.x + g.cos angle * pushDistance),
                         clampB 40 760 (pos1.y + g.sin angle * pushDistance)⟩
      let p2 : Point := ⟨clampB 40 1160 (pos2.x - g.cos angle * pushDistance),
                         clampB 40 760 (pos2.y - g.sin angle * pushDistance)⟩
      (((st.1.set i (ep1.1, p1)).set j (ep2.1, p2)), true)
    else st
  | _, _ => st

/-- One sweep over all index pairs `i < j`. -/
def circleSweep (g : Geom) (l0 : List (Ent × Point)) : List (Ent × Point) × Bool :=
  (List.range l0.length).foldl
    (fun st i => (List.range' (i + 1) (l0.length - (i + 1))).foldl (circleStep g i) st)
    (l0, false)

/-- The circle-relaxation `while` loop (cap 15). -/
def circleRelaxLoop (g : Geom) : Nat → List (Ent × Point) → List (Ent × Point) × Nat × Bool
  | 0, l => (l, 0, true)
  | k + 1, l =>
    let r := circleSweep g l
    if r.2 then
      let r2 := circleRelaxLoop g k r.1
      (r2.1, r2.2.1 + 1, r2.2.2)
    else (r.1, 1, false)

/-- `arrangeConnectedNodesInCircle`: place the focal entity's neighbors
on a circle (radius growing once the neighbor count exceeds 8), clamp to
`[40, 1160] × [40, 760]`, relax overlaps among the neighbor set only
(cap 15), and commit the neighbor positions into the map. -/
def arrangeConnectedNodesInCircle (g : Geom) (defs filtered : List Ent)
    (nodePositions : PosMap) (centerEntity : Ent) : PosMap :=
  let centerPos := getNodePosition nodePositions centerEntity filtered
  let connectedNodes := getEntityConnections defs centerEntity
  let N := connectedNodes.length
  if N = 0 then nodePositions
  else
    let dynamicRadius : ℚ := 160 + ((max 0 ((N : Int) - 8) : Int) : ℚ) * 20
    let startAngle : ℚ := -(g.pi) / 2
    let newPositions : List (Ent × Point) := connectedNodes.enum.map (fun p =>
      let angle := startAngle + (2 * g.pi * ((p.1 : Nat) : ℚ)) / (N : ℚ)
      (p.2, ⟨clampB 40 1160 (centerPos.x + dynamicRadius * g.cos angle),
             clampB 40 760 (centerPos.y + dynamicRadius * g.sin angle)⟩))
    let relaxed := (circleRelaxLoop g 15 newPositions).1
    relaxed.foldl (fun m p => mapSet m p.1.id p.2) nodePositions

/-! #### `resolveCollisionsOnDrop` (lines 868-990) -/

/-- Phase 0: find the nodes colliding with the dropped position
(the dropped node itself is skipped). -/
def dropCollideList (g : Geom) (newPositions : PosMap) (droppedPosition : Point)
    (droppedEntityId : Nat) : List (Nat × Point × ℚ) :=
  newPositions.foldl
    (fun acc p =>
      if p.1 = droppedEntityId then acc
      else
        let dx := droppedPosition.x - p.2.x
        let dy := droppedPosition.y - p.2.y
        let distance := g.sqrt (dx * dx + dy * dy)
        if distance < minDistance then acc ++ [(p.1, p.2, distance)] else acc)
    []

/-- Phase 1: push each initial collider away from the dropped position
(random direction when exactly coincident), clamped to
`[80, 1120] × [80, 720]`.  The second component threads the
`Math.random` stream index. -/
def dropPushPhase (g : Geom) (droppedPosition : Point)
    (colliding : List (Nat × Point × ℚ)) (st : PosMap × Nat) : PosMap × Nat :=
  colliding.foldl
    (fun (st : PosMap × Nat) c =>
      let collidingPos := c.2.1
      let distance := c.2.2
      if distance = 0 then
        let angle := g.rand st.2 * g.pi * 2
        let pushDistance := minDistance + 20
        let np : Point := ⟨clampB 80 1120 (droppedPosition.x + g.cos angle * pushDistance),
                           clampB 80 720 (droppedPosition.y + g.sin angle * pushDistance)⟩
        (mapSet st.1 c.1 np, st.2 + 1)
      else
        let dx := collidingPos.x - droppedPosition.x
        let dy := collidingPos.y - droppedPosition.y
        let angle := g.atan2 dy dx
        let pushDistance := minDistance - distance + 25
        let np : Point := ⟨clampB 80 1120 (collidingPos.x + g.cos angle * pushDistance),
                           clampB 80 720 (collidingPos.y + g.sin angle * pushDistance)⟩
        (mapSet st.1 c.1 np, st.2))
    st

/-- Phase 2 inner check: a moved node (stale position `mpos`) against
another node; the other node is pushed away (clamped).  The dropped node
is never re-checked. -/
def dropSecondaryStep (g : Geom) (droppedEntityId mid : Nat) (mpos : Point)
    (st : PosMap × Bool) (oid : Nat) : PosMap × Bool :=
  if oid = mid ∨ oid = droppedEntityId then st
  else
    match mapGet st.1 oid with
    | none => st
    | some opos =>
      let dx := mpos.x - opos.x
      let dy := mpos.y - opos.y
      let distance := g.sqrt (dx * dx + dy * dy)
      if distance < minDistance then
        let angle := g.atan2 (-dy) (-dx)
        let pushDistance := minDistance - distance + 20
        let np : Point := ⟨clampB 80 1120 (opos.x + g.cos angle * pushDistance),
                           clampB 80 720 (opos.y + g.sin angle * pushDistance)⟩
        (mapSet st.1 oid np, true)
      else st

/-- Phase 2, one pass over the moved nodes. -/
def dropSecondaryPass (g : Geom) (droppedEntityId : Nat) (movedIds : List Nat)
    (keys : List Nat) (st : PosMap × Bool) : PosMap × Bool :=
  movedIds.foldl
    (fun st mid =>
      match mapGet st.1 mid with
      | none => st
      | some mpos => keys.foldl (dropSecondaryStep g droppedEntityId mid mpos) st)
    st

/-- Phase 2 `while` loop (cap 20). -/
def dropSecondaryLoop (g : Geom) (droppedEntityId : Nat) (movedIds keys : List Nat) :
    Nat → PosMap → PosMap × Nat × Bool
  | 0, m => (m, 0, true)
  | k + 1, m =>
    let r := dropSecondaryPass g droppedEntityId movedIds keys (m, false)
    if r.2 then
      let r2 := dropSecondaryLoop g droppedEntityId movedIds keys k r.1
      (r2.1, r2.2.1 + 1, r2.2.2)
    else (r.1, 1, false)

/-- `resolveCollisionsOnDrop`: returns the resolved map together with the
phase-2 iteration count and final collision flag. -/
def resolveCollisionsOnDrop (g : Geom) (nodePositions : PosMap)
    (droppedPosition : Point) (droppedEntityId : Nat) : PosMap × Nat × Bool :=
  let newPositions := mapSet nodePositions droppedEntityId droppedPosition
  let colliding := dropCollideList g newPositions droppedPosition droppedEntityId
  if colliding.length = 0 then (newPositions, 0, false)
  else
    let pushed := dropPushPhase g droppedPosition colliding (newPositions, 0)
    dropSecondaryLoop g droppedEntityId (colliding.map (fun c => c.1))
      (mapKeys pushed.1) 20 pushed.1

/-! #### Node dragging (`handleNodeDrag`, lines 1037-1055) -/

/-- `handleNodeDrag`: no boundary restriction — the position is committed
unclamped; returns the map and the refreshed drag start. -/
def handleNodeDrag (nodePositions : PosMap) (filtered : List Ent) (draggedNode : Ent)
    (scale clientX clientY dragStartX dragStartY : ℚ) : PosMap × (ℚ × ℚ) :=
  let deltaX := (clientX - dragStartX) / scale
  let deltaY := (clientY - dragStartY) / scale
  let currentPos := getNodePosition nodePositions draggedNode filtered
  (mapSet nodePositions draggedNode.id ⟨currentPos.x + deltaX, currentPos.y + deltaY⟩,
    (clientX, clientY))

end CHVis

namespace CHVis

/-! #### Selection state (`handleEntityClick`, lines 743-780;
`centerNodeInView`, lines 635-649; `resetNetworkView`, lines 806-815) -/

inductive ViewMode where
  | grid
  | network
deriving DecidableEq, Repr

/-- The component state touched by selection and viewport logic. -/
structure GVState where
  selectedEntity : Option Ent
  focusedNode : Option Ent
  highlightedPaths : List (Nat × Nat)
  showDetailPanel : Bool
  viewMode : ViewMode
  nodePositions : PosMap
  networkTransform : Transform

/-- `centerNodeInView`: place the node's canvas coordinate at the fixed
focal point `(600, 400)`, preserving scale. -/
def centerNodeInView (filtered : List Ent) (viewMode : ViewMode)
    (nodePositions : PosMap) (t : Transform) (entityDef : Ent) : Transform :=
  if viewMode ≠ ViewMode.network then t
  else
    let nodePos := getNodePosition nodePositions entityDef filtered
    { t with x := 600 - nodePos.x * t.scale, y := 400 - nodePos.y * t.scale }

/-- `handleEntityClick`.  The highlight keys `"a-b"` are modelled as id
pairs (the string template is injective on numeric ids).  The
`setTimeout(..., 50)` deferral of `centerNodeInView` is modelled by
sequencing it after the circular arrangement commits, which is the
deferral's stated purpose. -/
def handleEntityClick (g : Geom) (defs filtered : List Ent) (st : GVState)
    (entityDef : Ent) : GVState :=
  if (match st.selectedEntity with
      | some s => s.id == entityDef.id
      | none => false) then
    { st with selectedEntity := none, focusedNode := none, highlightedPaths := [] }
  else
    let st1 := { st with selectedEntity := some entityDef, showDetailPanel := true }
    if st1.viewMode = ViewMode.network then
      let connections := getEntityConnections defs entityDef
      let pathIds := connections.foldl
        (fun acc c => acc ++ [(entityDef.id, c.id), (c.id, entityDef.id)]) []
      let st2 := { st1 with focusedNode := some entityDef, highlightedPaths := pathIds }
      let st3 := { st2 with nodePositions :=
        arrangeConnectedNodesInCircle g defs filtered st2.nodePositions entityDef }
      { st3 with networkTransform :=
        centerNodeInView filtered st3.viewMode st3.nodePositions st3.networkTransform entityDef }
    else st1

/-- `resetNetworkView`: identity transform, focus/highlights cleared, and
the selection cleared when one was active. -/
def resetNetworkView (st : GVState) : GVState :=
  let st1 := { st with
    networkTransform := ⟨0, 0, 1⟩
    focusedNode := none
    highlightedPaths := [] }
  match st.selectedEntity with
  | some _ => { st1 with selectedEntity := none, showDetailPanel := false }
  | none => st1

/-! #### Connection rendering (lines 1353-1433) -/

/-- One emitted `<line>`: endpoint ids and the adjusted segment. -/
structure LineSeg where
  src : Nat
  tgt : Nat
  x1 : ℚ
  y1 : ℚ
  x2 : ℚ
  y2 : ℚ
  highlighted : Bool
deriving DecidableEq, Repr

/-- The connection-rendering pass.  A global rendered-key set (id pairs,
standing for the strings `"a->b"`) suppresses a pair once claimed in
either direction; at most 4 connections per node are considered; a
claimed pair can still emit no line (target filtered out, separation
under 20, or hidden while a focus is active) — the key is added before
those checks.  The relation-lookup block of lines 1371-1392 assigns the
same endpoints in every branch and is omitted as a no-op. -/
def renderConnections (g : Geom) (filtered defs : List Ent) (nodePositions : PosMap)
    (focusedNode selectedEntity : Option Ent)
    (highlightedPaths : List (Nat × Nat)) : List LineSeg :=
  (filtered.foldl
    (fun (st : List (Nat × Nat) × List LineSeg) d =>
      let connections := (getEntityConnections defs d).take 4
      let sourcePos := getNodePosition nodePositions d filtered
      connections.foldl
        (fun (st : List (Nat × Nat) × List LineSeg) connectedDef =>
          if st.1.contains (d.id, connectedDef.id) || st.1.contains (connectedDef.id, d.id) then
            st
          else
            let rendered := st.1 ++ [(d.id, connectedDef.id)]
            match List.find? (fun d2 => d2.id == connectedDef.id) filtered with
            | none => (rendered, st.2)
            | some _ =>
              let targetPos := getNodePosition nodePositions connectedDef filtered
              let dx := targetPos.x - sourcePos.x
              let dy := targetPos.y - sourcePos.y
              let distance := g.sqrt (dx * dx + dy * dy)
              if distance < 20 then (rendered, st.2)
              else
                let nodeRadius : ℚ := 30
                let factor := (distance - nodeRadius) / distance
                let adjStartX := sourcePos.x + dx * (nodeRadius / distance)
                let adjStartY := sourcePos.y + dy * (nodeRadius / distance)
                let adjEndX := sourcePos.x + dx * factor
                let adjEndY := sourcePos.y + dy * factor
                let isHighlighted := highlightedPaths.contains (d.id, connectedDef.id)
                let isConnectedToSelected :=
                  match selectedEntity with
                  | some s => s.id == d.id || s.id == connectedDef.id
                  | none => false
                let shouldHide :=
                  match focusedNode with
                  | some f => !(f.id == d.id || f.id == connectedDef.id)
                  | none => false
                if shouldHide then (rendered, st.2)
                else
                  let seg : LineSeg :=
                    { src := d.id
                      tgt := connectedDef.id
                      x1 := adjStartX
                      y1 := adjStartY
                      x2 := adjEndX
                      y2 := adjEndY
                      highlighted := isHighlighted || isConnectedToSelected }
                  (rendered, st.2 ++ [seg]))
        st)
    ([], [])).2

end CHVis

namespace CHVis

/-! ### Claim C7: selection toggle -/

/-- Claim C7: clicking `X` when nothing (or a different entity) is
selected selects `X`; clicking `X` while it is selected clears the
selection, the focused node, and the highlighted-connection set.  Entity
identity is by `id` (the code compares `selectedEntity?.id ===
entityDef.id`). -/
theorem selectionToggle (g : Geom) (defs filtered : List Ent) (st : GVState) (X : Ent) :
    ((∀ s, st.selectedEntity = some s → s.id ≠ X.id) →
      (handleEntityClick g defs filtered st X).selectedEntity = some X) ∧
    (∀ s, st.selectedEntity = some s → s.id = X.id →
      (handleEntityClick g defs filtered st X).selectedEntity = none ∧
      (handleEntityClick g defs filtered st X).focusedNode = none ∧
      (handleEntityClick g defs filtered st X).highlightedPaths = []) := by
  unfold handleEntityClick
  rcases hsel : st.selectedEntity with _ | s
  · refine ⟨fun _ => ?_, fun s hs => absurd hs (by simp)⟩
    by_cases hv : st.viewMode = ViewMode.network <;> simp [hv]
  · by_cases hid : s.id = X.id
    · refine ⟨fun hne => absurd hid (hne s rfl), fun s' hs' _ => ?_⟩
      have hss : s' = s := (Option.some.inj hs').symm
      simp [hid]
    · refine ⟨fun _ => ?_, fun s' hs' heq => ?_⟩
      · have hbeq : (s.id == X.id) = false := by
          simp [hid]
        by_cases hv : st.viewMode = ViewMode.network <;> simp [hbeq, hv]
      · have hss : s' = s := (Option.some.inj hs').symm
        rw [hss] at heq
        exact absurd heq hid

/-- Witness for `selectionToggle` on a concrete one-node state. -/
theorem selectionToggle_witness :
    (∀ s, (GVState.mk none none [] true ViewMode.grid [] ⟨0, 0, 1⟩).selectedEntity
        = some s → s.id ≠ (default : Ent).id) ∧
      (handleEntityClick ⟨id, id, id, fun _ _ => 0, 0, fun _ => 0⟩ [] []
        (GVState.mk none none [] true ViewMode.grid [] ⟨0, 0, 1⟩)
        default).selectedEntity = some default :=
  ⟨fun s hs => absurd hs (by simp),
    (selectionToggle ⟨id, id, id, fun _ _ => 0, 0, fun _ => 0⟩ [] []
      (GVState.mk none none [] true ViewMode.grid [] ⟨0, 0, 1⟩) default).1
      (fun s hs => absurd hs (by simp))⟩

end CHVis

namespace CHVis

/-! ### Claim C10: reverse neighbors come only from the first 5 relations -/

theorem foldl_preserve {α β : Type _} (f : β → α → β) (P : β → Prop)
    (l : List α) (init : β) (hinit : P init)
    (hstep : ∀ b a, a ∈ l → P b → P (f b a)) :
    P (l.foldl f init) := by
  induction l generalizing init with
  | nil => exact hinit
  | cons x xs ih =>
    exact ih (f init x) (hstep init x (by simp) hinit)
      (fun b a ha hb => hstep b a (by simp [ha]) hb)

/-- Claim C10: whenever `D` appears in `getEntityConnections defs E`, it
entered either through a direct relation of `E` resolving to `D` (name or
id-string match) or through a relation among the first 5 of `D`'s own
relation list targeting `E` by name or id string; a reverse relation at
index 5 or later never contributes a neighbor. -/
theorem connectionNeighborScope (defs : List Ent) (E D : Ent)
    (hmem : D ∈ getEntityConnections defs E) :
    (∃ r ∈ E.relations, D.name = r.target ∨ toString D.id = r.target) ∨
    (∃ r ∈ D.relations.take 5, r.target = E.name ∨ r.target = toString E.id) := by
  unfold getEntityConnections at hmem
  set P : List Ent × List String → Prop := fun acc =>
    ∀ x ∈ acc.1,
      (∃ r ∈ E.relations, x.name = r.target ∨ toString x.id = r.target) ∨
      (∃ r ∈ x.relations.take 5, r.target = E.name ∨ r.target = toString E.id)
    with hP
  have hdirect : P (E.relations.foldl
      (fun (acc : List Ent × List String) rel =>
        match List.find? (fun d => d.name == rel.target || toString d.id == rel.target) defs with
        | some targetEntity =>
          if acc.2.contains targetEntity.name then acc
          else (acc.1 ++ [targetEntity], acc.2 ++ [targetEntity.name])
        | none => acc)
      ([], [])) := by
    apply foldl_preserve _ P
    · intro x hx
      exact absurd hx (by simp)
    · intro b rel hrel hb
      rcases hfind : List.find? (fun d => d.name == rel.target ||
          toString d.id == rel.target) defs with _ | tE
      · simpa [hfind] using hb
      · have hpred := List.find?_some hfind
        rw [Bool.or_eq_true] at hpred
        by_cases hcon : b.2.contains tE.name = true
        · simp only [hfind]
          rw [if_pos hcon]
          exact hb
        · simp only [hfind]
          rw [if_neg hcon]
          intro x hx
          rcases List.mem_append.mp hx with hx1 | hx2
          · exact hb x hx1
          · rw [List.mem_singleton.mp hx2]
            left
            refine ⟨rel, hrel, ?_⟩
            rcases hpred with h1 | h1
            · exact Or.inl (beq_iff_eq.mp h1)
            · exact Or.inr (beq_iff_eq.mp h1)
  have hboth : P (defs.foldl
      (fun (acc : List Ent × List String) d =>
        (d.relations.take 5).foldl
          (fun (acc : List Ent × List String) rel =>
            if (rel.target == E.name || rel.target == toString E.id)
                && !(acc.2.contains d.name) then
              (acc.1 ++ [d], acc.2 ++ [d.name])
            else acc)
          acc)
      (E.relations.foldl
        (fun (acc : List Ent × List String) rel =>
          match List.find? (fun d => d.name == rel.target || toString d.id == rel.target) defs with
          | some targetEntity =>
            if acc.2.contains targetEntity.name then acc
            else (acc.1 ++ [targetEntity], acc.2 ++ [targetEntity.name])
          | none => acc)
        ([], []))) := by
    apply foldl_preserve _ P _ _ hdirect
    intro b d hd hb
    apply foldl_preserve _ P
    · exact hb
    · intro b2 rel hrel hb2
      by_cases hcond : ((rel.target == E.name || rel.target == toString E.id)
          && !(b2.2.contains d.name)) = true
      · rw [if_pos hcond]
        intro x hx
        rcases List.mem_append.mp hx with hx1 | hx2
        · exact hb2 x hx1
        · rw [List.mem_singleton.mp hx2]
          right
          refine ⟨rel, hrel, ?_⟩
          rw [Bool.and_eq_true, Bool.or_eq_true] at hcond
          rcases hcond.1 with h1 | h1
          · exact Or.inl (beq_iff_eq.mp h1)
          · exact Or.inr (beq_iff_eq.mp h1)
      · rw [if_neg hcond]
        exact hb2
  exact hboth D hmem

/-- Witness for `connectionNeighborScope`: a reverse neighbor found via
the first relation of the pointing entity. -/
def wD : Ent := { id := 7, name := "Doc", relations := [{
  target := "Asset"
  type := "Parent-OneToMany"
  name := some "rv"
  role := some "Parent"
  cardinality := some "OneToMany" }] }

def wE : Ent := { id := 8, name := "Asset" }

theorem connectionNeighborScope_witness :
    wD ∈ getEntityConnections [wE, wD] wE ∧
      ((∃ r ∈ wE.relations, wD.name = r.target ∨ toString wD.id = r.target) ∨
        (∃ r ∈ wD.relations.take 5, r.target = wE.name ∨ r.target = toString wE.id)) :=
  ⟨by decide, connectionNeighborScope [wE, wD] wE wD (by decide)⟩

end CHVis

namespace CHVis

/-! ### Claim C4: minimum separation after overlap resolution -/

/-- Squared Euclidean distance between two points. -/
def dist2 (p q : Point) : ℚ :=
  (p.x - q.x) * (p.x - q.x) + (p.y - q.y) * (p.y - q.y)

/-- The idealized-float specification of `Math.sqrt`: non-negative and
never overestimating the exact square root. -/
def sqrtSpec (g : Geom) : Prop :=
  ∀ q : ℚ, 0 ≤ q → 0 ≤ g.sqrt q ∧ g.sqrt q * g.sqrt q ≤ q

/-- All positioned pairs are at least `minDistance` apart (stated on
squared distances; `minDistance² = 84² = 7056`). -/
def pairwiseSeparated (m : PosMap) : Prop :=
  ∀ a b pa pb, mapGet m a = some pa → mapGet m b = some pb → a ≠ b →
    minDistance * minDistance ≤ dist2 pa pb

theorem mapGet_some_mem_keys (m : PosMap) (a : Nat) (pa : Point)
    (h : mapGet m a = some pa) : a ∈ mapKeys m := by
  unfold mapGet at h
  rcases hf : List.find? (fun p => p.1 == a) m with _ | p
  · rw [hf] at h
    exact Option.noConfusion h
  · have hmem := List.mem_of_find?_eq_some hf
    have hpred := List.find?_some hf
    have : p.1 = a := beq_iff_eq.mp hpred
    unfold mapKeys
    rw [← this]
    exact List.mem_map_of_mem Prod.fst hmem

/-- A collide step with a `false` output flag changed nothing and
certifies the checked pair separated. -/
theorem collideStep_false (g : Geom) (id1 : Nat) (pos1 : Point)
    (st : PosMap × Bool) (id2 : Nat)
    (h : (collideStep g id1 pos1 st id2).2 = false) :
    collideStep g id1 pos1 st id2 = st ∧ st.2 = false ∧
    (id1 < id2 → ∀ pos2, mapGet st.1 id2 = some pos2 →
      ¬ (g.sqrt (dist2 pos1 pos2) < minDistance)) := by
  unfold collideStep at h ⊢
  by_cases hle : id2 ≤ id1
  · rw [if_pos hle] at h ⊢
    exact ⟨rfl, h, fun hlt => absurd hlt (by omega)⟩
  · rw [if_neg hle] at h ⊢
    rcases hg : mapGet st.1 id2 with _ | pos2
    · simp only [hg] at h ⊢
      exact ⟨trivial, h, fun _ pos2 hp => Option.noConfusion hp⟩
    · simp only [hg] at h ⊢
      by_cases hd : g.sqrt ((pos1.x - pos2.x) * (pos1.x - pos2.x) +
          (pos1.y - pos2.y) * (pos1.y - pos2.y)) < minDistance
      · rw [if_pos hd] at h
        exact absurd h (by simp)
      · rw [if_neg hd] at h ⊢
        refine ⟨rfl, h, fun _ pos2' hp => ?_⟩
        have hpp : pos2' = pos2 := (Option.some.inj hp).symm
        rw [hpp]
        unfold dist2
        exact hd

/-- An inner pair sweep with a `false` output flag changed nothing and
certifies every checked pair separated. -/
theorem innerFold_false (g : Geom) (id1 : Nat) (pos1 : Point) (keys : List Nat)
    (st : PosMap × Bool)
    (h : (keys.foldl (collideStep g id1 pos1) st).2 = false) :
    keys.foldl (collideStep g id1 pos1) st = st ∧ st.2 = false ∧
    ∀ id2 ∈ keys, id1 < id2 → ∀ pos2, mapGet st.1 id2 = some pos2 →
      ¬ (g.sqrt (dist2 pos1 pos2) < minDistance) := by
  induction keys generalizing st with
  | nil =>
    exact ⟨rfl, h, fun id2 h2 => absurd h2 (by simp)⟩
  | cons id2 rest ih =>
    rw [List.foldl_cons] at h
    obtain ⟨hfold, hflag, hrest⟩ := ih (collideStep g id1 pos1 st id2) h
    obtain ⟨hstep, hflag0, hpair⟩ := collideStep_false g id1 pos1 st id2 hflag
    rw [List.foldl_cons, hstep]
    rw [hstep] at hfold
    refine ⟨hfold, hflag0, ?_⟩
    intro id2' hmem hlt pos2 hp
    rcases List.mem_cons.mp hmem with heq | hmem'
    · subst heq
      exact hpair hlt pos2 hp
    · have := hrest id2' hmem' hlt pos2
      rw [hstep] at this
      exact this hp

/-- An outer step with a `false` output flag changed nothing and
certifies the yielded node separated from every later key. -/
theorem sweepOuterStep_false (g : Geom) (keys : List Nat) (st : PosMap × Bool)
    (id1 : Nat) (h : (sweepOuterStep g keys st id1).2 = false) :
    sweepOuterStep g keys st id1 = st ∧ st.2 = false ∧
    ∀ pos1, mapGet st.1 id1 = some pos1 →
      ∀ id2 ∈ keys, id1 < id2 → ∀ pos2, mapGet st.1 id2 = some pos2 →
        ¬ (g.sqrt (dist2 pos1 pos2) < minDistance) := by
  unfold sweepOuterStep at h ⊢
  rcases hg : mapGet st.1 id1 with _ | pos1
  · simp only [hg] at h ⊢
    exact ⟨trivial, h, fun pos1 hp => Option.noConfusion hp⟩
  · simp only [hg] at h ⊢
    obtain ⟨hfold, hflag, hpairs⟩ := innerFold_false g id1 pos1 keys st h
    refine ⟨hfold, hflag, ?_⟩
    intro pos1' hp
    have hpp : pos1' = pos1 := (Option.some.inj hp).symm
    rw [hpp]
    exact hpairs

/-- A clean sweep leaves the map unchanged and certifies pairwise
separation (as measured by the oracle `sqrt`). -/
theorem sweep_false (g : Geom) (m : PosMap) (h : (sweep g m).2 = false) :
    (sweep g m).1 = m ∧
    ∀ a ∈ mapKeys m, ∀ b ∈ mapKeys m, a < b →
      ∀ pa pb, mapGet m a = some pa → mapGet m b = some pb →
        ¬ (g.sqrt (dist2 pa pb) < minDistance) := by
  unfold sweep at h ⊢
  suffices hgen : ∀ (ks : List Nat) (st : PosMap × Bool),
      ((ks.foldl (sweepOuterStep g (mapKeys m)) st).2 = false) →
      ks.foldl (sweepOuterStep g (mapKeys m)) st = st ∧ st.2 = false ∧
      ∀ a ∈ ks, ∀ pa, mapGet st.1 a = some pa →
        ∀ b ∈ mapKeys m, a < b → ∀ pb, mapGet st.1 b = some pb →
          ¬ (g.sqrt (dist2 pa pb) < minDistance) by
    obtain ⟨hfold, _, hpairs⟩ := hgen (mapKeys m) (m, false) h
    rw [hfold]
    exact ⟨rfl, fun a ha b hb hlt pa pb hpa hpb =>
      hpairs a ha pa hpa b hb hlt pb hpb⟩
  intro ks
  induction ks with
  | nil =>
    intro st h2
    exact ⟨rfl, h2, fun a ha => absurd ha (by simp)⟩
  | cons a rest ih =>
    intro st h2
    rw [List.foldl_cons] at h2
    obtain ⟨hfold, hflag, hrest⟩ := ih (sweepOuterStep g (mapKeys m) st a) h2
    obtain ⟨hstep, hflag0, hnode⟩ := sweepOuterStep_false g (mapKeys m) st a hflag
    rw [List.foldl_cons, hstep]
    rw [hstep] at hfold
    refine ⟨hfold, hflag0, ?_⟩
    intro a' ha' pa hpa b hb hlt pb hpb
    rcases List.mem_cons.mp ha' with heq | hmem'
    · subst heq
      exact hnode pa hpa b hb hlt pb hpb
    · have := hrest a' hmem' pa
      rw [hstep] at this
      exact this hpa b hb hlt pb hpb

/-- A `sweepLoop` run ending with a clear flag ends on a clean sweep of
its own result. -/
theorem sweepLoop_false (g : Geom) (k : Nat) :
    ∀ m, (sweepLoop g k m).2.2 = false →
      (sweep g (sweepLoop g k m).1).2 = false ∧
        (sweep g (sweepLoop g k m).1).1 = (sweepLoop g k m).1 := by
  induction k with
  | zero =>
    intro m h
    exact absurd h (by simp [sweepLoop])
  | succ k ih =>
    intro m h
    unfold sweepLoop at h ⊢
    by_cases hr : (sweep g m).2 = true
    · simp only [hr, if_true] at h ⊢
      exact ih (sweep g m).1 h
    · have hrf : (sweep g m).2 = false := by
        simpa using hr
      simp only [hrf] at h ⊢
      simp only [Bool.false_eq_true, if_false]
      have hm := sweep_false g m hrf
      constructor
      · rw [hm.1]
        exact hrf
      · rw [hm.1]
        exact hm.1

end CHVis

namespace CHVis

/-- Amended C4 (see `claimOverlapSeparation_false` for the drop pass):
when the initial overlap-resolution pass (cap 30) terminates with a clean
sweep, every pair of positioned nodes ends at squared distance at least
`(2.8 · nodeRadius)² = 84² = 7056` — given a `Math.sqrt` that is
non-negative and never overestimates. -/
theorem initialOverlapResolution_separation (g : Geom) (hsq : sqrtSpec g)
    (m : PosMap) (hterm : (resolveInitialOverlaps g m).2.2 = false) :
    pairwiseSeparated (resolveInitialOverlaps g m).1 := by
  obtain ⟨hclean, _⟩ := sweepLoop_false g 30 m hterm
  have hsw := sweep_false g (sweepLoop g 30 m).1 hclean
  have key : ∀ a b pa pb, a < b →
      mapGet (sweepLoop g 30 m).1 a = some pa →
      mapGet (sweepLoop g 30 m).1 b = some pb →
      minDistance * minDistance ≤ dist2 pa pb := by
    intro a b pa pb hlt hpa hpb
    have hsep := hsw.2 a (mapGet_some_mem_keys _ a pa hpa) b
      (mapGet_some_mem_keys _ b pb hpb) hlt pa pb hpa hpb
    have h84 : minDistance ≤ g.sqrt (dist2 pa pb) := not_lt.mp hsep
    have hd2 : 0 ≤ dist2 pa pb := by
      unfold dist2
      nlinarith [mul_self_nonneg (pa.x - pb.x), mul_self_nonneg (pa.y - pb.y)]
    obtain ⟨hnn, hle⟩ := hsq (dist2 pa pb) hd2
    calc minDistance * minDistance
        ≤ g.sqrt (dist2 pa pb) * g.sqrt (dist2 pa pb) :=
          mul_le_mul h84 h84 (by norm_num [minDistance]) hnn
      _ ≤ dist2 pa pb := hle
  intro a b pa pb hpa hpb hab
  rcases Nat.lt_or_ge a b with hlt | hge
  · exact key a b pa pb hlt hpa hpb
  · have hlt : b < a := by omega
    have h2 := key b a pb pa hlt hpb hpa
    have hsym : dist2 pb pa = dist2 pa pb := by
      unfold dist2
      ring
    rw [hsym] at h2
    exact h2

end CHVis

namespace CHVis

/-! #### C4: the claim as stated, covering both overlap-resolution passes -/

/-- The C4 claim as stated: for every `Math.sqrt` satisfying the
idealized-float bound, a run of either overlap-resolution pass that
terminates without exhausting its cap leaves every pair of positioned
nodes at least `minDistance` apart. -/
def claimOverlapSeparation : Prop :=
  ∀ g : Geom, sqrtSpec g →
    (∀ m, (resolveInitialOverlaps g m).2.2 = false →
      pairwiseSeparated (resolveInitialOverlaps g m).1) ∧
    (∀ m p did, (resolveCollisionsOnDrop g m p did).2.2 = false →
      pairwiseSeparated (resolveCollisionsOnDrop g m p did).1)

/-- A `Math.sqrt` oracle that is exact on the two squared distances the
counterexample run meets (`84² = 7056` and `10² = 100`) and
under-approximates everywhere else; the trigonometric oracle pins
`cos = 1`, `sin = 0`, matching `atan2 = 0` on the axis-aligned push. -/
def gW : Geom :=
  { sqrt := fun q => if 7056 ≤ q then 84 else if 100 ≤ q then 10 else 0
    cos := fun _ => 1
    sin := fun _ => 0
    atan2 := fun _ _ => 0
    pi := 0
    rand := fun _ => 0 }

theorem gW_sqrtSpec : sqrtSpec gW := by
  intro q hq
  unfold gW
  dsimp only
  split_ifs with h1 h2
  · constructor
    · norm_num
    · linarith
  · constructor
    · norm_num
    · linarith
  · constructor
    · norm_num
    · linarith

/-- Nodes 1 and 2 overlap (10 apart); node 3 sits near the drop point. -/
def cexDropMap : PosMap :=
  [(1, ⟨100, 100⟩), (2, ⟨110, 100⟩), (3, ⟨1010, 700⟩)]

/-- `cexDropMap` after the dropped node 4 is written at `(1000, 700)`. -/
def cexDropMap4 : PosMap :=
  [(1, ⟨100, 100⟩), (2, ⟨110, 100⟩), (3, ⟨1010, 700⟩), (4, ⟨1000, 700⟩)]

/-- ... and after node 3 is pushed to `(1109, 700)` by phase 1. -/
def cexDropMap4' : PosMap :=
  [(1, ⟨100, 100⟩), (2, ⟨110, 100⟩), (3, ⟨1109, 700⟩), (4, ⟨1000, 700⟩)]

/-- Concrete drop run: node 3 collides with the dropped node 4, is pushed
clear, and the secondary sweep is clean after one pass (`flag = false`,
1 iteration of the cap of 20) — yet nodes 1 and 2 are still 10 apart. -/
theorem cexDrop_run :
    resolveCollisionsOnDrop gW cexDropMap ⟨1000, 700⟩ 4 = (cexDropMap4', 1, false) := by
  have h1 : mapSet cexDropMap 4 ⟨1000, 700⟩ = cexDropMap4 := by
    simp [cexDropMap, cexDropMap4, mapSet]
  have h2 : dropCollideList gW cexDropMap4 ⟨1000, 700⟩ 4 =
      [(3, ⟨1010, 700⟩, 10)] := by
    norm_num [dropCollideList, cexDropMap4, List.foldl, gW, minDistance]
  have h3 : dropPushPhase gW ⟨1000, 700⟩ [(3, ⟨1010, 700⟩, 10)] (cexDropMap4, 0) =
      (cexDropMap4', 0) := by
    norm_num [dropPushPhase, List.foldl, gW, minDistance, clampB, mapSet,
      cexDropMap4, cexDropMap4', max_def, min_def]
  have g1 : mapGet cexDropMap4' 1 = some ⟨100, 100⟩ := by
    simp [cexDropMap4', mapGet, List.find?]
  have g2 : mapGet cexDropMap4' 2 = some ⟨110, 100⟩ := by
    simp [cexDropMap4', mapGet, List.find?]
  have g3 : mapGet cexDropMap4' 3 = some ⟨1109, 700⟩ := by
    simp [cexDropMap4', mapGet, List.find?]
  have s1 : dropSecondaryStep gW 4 3 ⟨1109, 700⟩ (cexDropMap4', false) 1 =
      (cexDropMap4', false) := by
    unfold dropSecondaryStep
    rw [if_neg (by norm_num)]
    rw [g1]
    norm_num [gW, minDistance]
  have s2 : dropSecondaryStep gW 4 3 ⟨1109, 700⟩ (cexDropMap4', false) 2 =
      (cexDropMap4', false) := by
    unfold dropSecondaryStep
    rw [if_neg (by norm_num)]
    rw [g2]
    norm_num [gW, minDistance]
  have s3 : dropSecondaryStep gW 4 3 ⟨1109, 700⟩ (cexDropMap4', false) 3 =
      (cexDropMap4', false) := by
    unfold dropSecondaryStep
    rw [if_pos (by norm_num)]
  have s4 : dropSecondaryStep gW 4 3 ⟨1109, 700⟩ (cexDropMap4', false) 4 =
      (cexDropMap4', false) := by
    unfold dropSecondaryStep
    rw [if_pos (by norm_num)]
  have hkeys : mapKeys cexDropMap4' = [1, 2, 3, 4] := by
    simp [cexDropMap4', mapKeys]
  have h4 : dropSecondaryPass gW 4 [3] [1, 2, 3, 4] (cexDropMap4', false) =
      (cexDropMap4', false) := by
    unfold dropSecondaryPass
    rw [List.foldl_cons]
    dsimp only
    rw [g3]
    dsimp only
    rw [List.foldl_cons, s1, List.foldl_cons, s2, List.foldl_cons, s3,
      List.foldl_cons, s4, List.foldl_nil, List.foldl_nil]
  unfold resolveCollisionsOnDrop
  simp only [h1, h2]
  rw [if_neg (by norm_num)]
  simp only [h3]
  rw [show (20 : Nat) = 19 + 1 from rfl]
  unfold dropSecondaryLoop
  simp only [List.map_cons, List.map_nil]
  rw [hkeys]
  simp only [h4]
  simp

/-- C4 is false as stated: on `cexDropMap`, dropping node 4 at
`(1000, 700)` terminates with a clean secondary sweep after 1 of 20
iterations, but nodes 1 and 2 end (and started) only 10 apart — the drop
pass never examines pairs that do not involve the dropped or a pushed
node.  The `Math.sqrt` oracle `gW` satisfies the idealized-float bound. -/
theorem claimOverlapSeparation_false : ¬ claimOverlapSeparation := by
  intro h
  have h2 := (h gW gW_sqrtSpec).2 cexDropMap ⟨1000, 700⟩ 4 (by rw [cexDrop_run])
  have h3 := h2 1 2 ⟨100, 100⟩ ⟨110, 100⟩
    (by rw [cexDrop_run]; simp [cexDropMap4', mapGet, List.find?])
    (by rw [cexDrop_run]; simp [cexDropMap4', mapGet, List.find?])
    (by decide)
  norm_num [minDistance, dist2] at h3

/-- Witness for the amended C4: a single-node map makes the very first
sweep clean, so the initial pass returns after 1 of 30 iterations with
the flag down, and the separation theorem applies. -/
theorem initialOverlapResolution_separation_witness :
    pairwiseSeparated (resolveInitialOverlaps gW [(1, ⟨100, 100⟩)]).1 :=
  initialOverlapResolution_separation gW gW_sqrtSpec [(1, ⟨100, 100⟩)] (by
    rw [show resolveInitialOverlaps gW [(1, ⟨100, 100⟩)] =
      sweepLoop gW 30 [(1, ⟨100, 100⟩)] from rfl]
    rw [show (30 : Nat) = 29 + 1 from rfl]
    unfold sweepLoop
    simp [sweep, mapKeys, sweepOuterStep, mapGet, List.find?, List.foldl, collideStep])

end CHVis

namespace CHVis

/-! #### C2: bounds on committed positions -/

/-- `p` lies in the axis-aligned box `[lox, hix] × [loy, hiy]`. -/
def inBox (lox hix loy hiy : ℚ) (p : Point) : Prop :=
  lox ≤ p.x ∧ p.x ≤ hix ∧ loy ≤ p.y ∧ p.y ≤ hiy

theorem mapGet_mapSet (m : PosMap) (k : Nat) (v : Point) (k' : Nat) :
    mapGet (mapSet m k v) k' = if k' = k then some v else mapGet m k' := by
  induction m with
  | nil =>
    by_cases h : k' = k
    · subst h
      simp [mapSet, mapGet]
    · rw [if_neg h]
      simp only [mapSet, mapGet]
      rw [List.find?_cons_of_neg _ (by simpa using fun he => h he.symm)]
  | cons hd tl ih =>
    by_cases hk : hd.1 = k
    · by_cases h : k' = k
      · subst h
        simp [mapSet, hk, mapGet]
      · rw [if_neg h]
        simp only [mapSet, if_pos hk, mapGet]
        rw [List.find?_cons_of_neg _ (by simpa using fun he => h he.symm),
          List.find?_cons_of_neg _ (by simpa [hk] using fun he => h he.symm)]
    · simp only [mapSet, if_neg hk, mapGet] at ih ⊢
      by_cases hh : hd.1 = k'
      · rw [if_neg (fun he => hk (hh.trans he))]
        rw [List.find?_cons_of_pos _ (by simpa using hh),
          List.find?_cons_of_pos _ (by simpa using hh)]
      · rw [List.find?_cons_of_neg _ (by simpa using hh)]
        rw [ih]
        by_cases h : k' = k
        · rw [if_pos h, if_pos h]
        · rw [if_neg h, if_neg h]
          rw [List.find?_cons_of_neg _ (by simpa using hh)]

theorem clampB_mem (lo hi v : ℚ) (h : lo ≤ hi) :
    lo ≤ clampB lo hi v ∧ clampB lo hi v ≤ hi := by
  unfold clampB
  exact ⟨le_max_left _ _, max_le h (min_le_left _ _)⟩

theorem inBox_clamp (lox hix loy hiy a b : ℚ) (hx : lox ≤ hix) (hy : loy ≤ hiy) :
    inBox lox hix loy hiy ⟨clampB lox hix a, clampB loy hiy b⟩ := by
  obtain ⟨h1, h2⟩ := clampB_mem lox hix a hx
  obtain ⟨h3, h4⟩ := clampB_mem loy hiy b hy
  exact ⟨h1, h2, h3, h4⟩

/-- Every entry of `m` is either carried over unchanged from `m0` or
satisfies `B` (it was written by the pass under study). -/
def Writes (m0 : PosMap) (B : Point → Prop) (m : PosMap) : Prop :=
  ∀ k p, mapGet m k = some p → mapGet m0 k = some p ∨ B p

theorem writes_refl (m0 : PosMap) (B : Point → Prop) : Writes m0 B m0 :=
  fun _ _ h => Or.inl h

theorem writes_mapSet (m0 : PosMap) (B : Point → Prop) (m : PosMap) (k : Nat)
    (v : Point) (hm : Writes m0 B m) (hv : B v) : Writes m0 B (mapSet m k v) := by
  intro k' p hp
  rw [mapGet_mapSet] at hp
  by_cases h : k' = k
  · rw [if_pos h] at hp
    exact Or.inr ((Option.some.inj hp) ▸ hv)
  · rw [if_neg h] at hp
    exact hm k' p hp

theorem writes_collideStep (g : Geom) (m0 : PosMap) (id1 : Nat) (pos1 : Point)
    (st : PosMap × Bool) (id2 : Nat)
    (hm : Writes m0 (inBox 80 1120 80 720) st.1) :
    Writes m0 (inBox 80 1120 80 720) (collideStep g id1 pos1 st id2).1 := by
  unfold collideStep
  by_cases hle : id2 ≤ id1
  · rw [if_pos hle]
    exact hm
  · rw [if_neg hle]
    rcases hg : mapGet st.1 id2 with _ | pos2
    · exact hm
    · dsimp only
      by_cases hd : g.sqrt ((pos1.x - pos2.x) * (pos1.x - pos2.x) +
          (pos1.y - pos2.y) * (pos1.y - pos2.y)) < minDistance
      · rw [if_pos hd]
        exact writes_mapSet _ _ _ _ _
          (writes_mapSet _ _ _ _ _ hm (inBox_clamp _ _ _ _ _ _ (by norm_num) (by norm_num)))
          (inBox_clamp _ _ _ _ _ _ (by norm_num) (by norm_num))
      · rw [if_neg hd]
        exact hm

theorem writes_sweep (g : Geom) (m0 m : PosMap)
    (hm : Writes m0 (inBox 80 1120 80 720) m) :
    Writes m0 (inBox 80 1120 80 720) (sweep g m).1 := by
  unfold sweep
  apply foldl_preserve _ (fun st : PosMap × Bool => Writes m0 (inBox 80 1120 80 720) st.1)
    _ _ hm
  intro st id1 _ hst
  unfold sweepOuterStep
  rcases hg : mapGet st.1 id1 with _ | pos1
  · exact hst
  · apply foldl_preserve _ (fun st : PosMap × Bool => Writes m0 (inBox 80 1120 80 720) st.1)
      _ _ hst
    intro st2 id2 _ hst2
    exact writes_collideStep g m0 id1 pos1 st2 id2 hst2

theorem writes_sweepLoop (g : Geom) (m0 : PosMap) (fuel : Nat) :
    ∀ m, Writes m0 (inBox 80 1120 80 720) m →
      Writes m0 (inBox 80 1120 80 720) (sweepLoop g fuel m).1 := by
  induction fuel with
  | zero =>
    intro m hm
    exact hm
  | succ k ih =>
    intro m hm
    unfold sweepLoop
    by_cases hr : (sweep g m).2 = true
    · rw [if_pos hr]
      exact ih _ (writes_sweep g m0 m hm)
    · rw [if_neg hr]
      exact writes_sweep g m0 m hm

theorem writes_dropPushPhase (g : Geom) (m0 : PosMap) (dp : Point)
    (colliding : List (Nat × Point × ℚ)) (st : PosMap × Nat)
    (hm : Writes m0 (inBox 80 1120 80 720) st.1) :
    Writes m0 (inBox 80 1120 80 720) (dropPushPhase g dp colliding st).1 := by
  unfold dropPushPhase
  apply foldl_preserve _ (fun st : PosMap × Nat => Writes m0 (inBox 80 1120 80 720) st.1)
    _ _ hm
  intro st2 c _ hst
  dsimp only
  by_cases hz : c.2.2 = 0
  · rw [if_pos hz]
    exact writes_mapSet _ _ _ _ _ hst (inBox_clamp _ _ _ _ _ _ (by norm_num) (by norm_num))
  · rw [if_neg hz]
    exact writes_mapSet _ _ _ _ _ hst (inBox_clamp _ _ _ _ _ _ (by norm_num) (by norm_num))

theorem writes_dropSecondaryStep (g : Geom) (m0 : PosMap) (did mid : Nat) (mpos : Point)
    (st : PosMap × Bool) (oid : Nat)
    (hm : Writes m0 (inBox 80 1120 80 720) st.1) :
    Writes m0 (inBox 80 1120 80 720) (dropSecondaryStep g did mid mpos st oid).1 := by
  unfold dropSecondaryStep
  by_cases hs : oid = mid ∨ oid = did
  · rw [if_pos hs]
    exact hm
  · rw [if_neg hs]
    rcases hg : mapGet st.1 oid with _ | opos
    · exact hm
    · dsimp only
      by_cases hd : g.sqrt ((mpos.x - opos.x) * (mpos.x - opos.x) +
          (mpos.y - opos.y) * (mpos.y - opos.y)) < minDistance
      · rw [if_pos hd]
        exact writes_mapSet _ _ _ _ _ hm (inBox_clamp _ _ _ _ _ _ (by norm_num) (by norm_num))
      · rw [if_neg hd]
        exact hm

theorem writes_dropSecondaryPass (g : Geom) (m0 : PosMap) (did : Nat)
    (movedIds keys : List Nat) (st : PosMap × Bool)
    (hm : Writes m0 (inBox 80 1120 80 720) st.1) :
    Writes m0 (inBox 80 1120 80 720) (dropSecondaryPass g did movedIds keys st).1 := by
  unfold dropSecondaryPass
  apply foldl_preserve _ (fun st : PosMap × Bool => Writes m0 (inBox 80 1120 80 720) st.1)
    _ _ hm
  intro st2 mid _ hst
  rcases hg : mapGet st2.1 mid with _ | mpos
  · exact hst
  · dsimp only
    apply foldl_preserve _ (fun st : PosMap × Bool => Writes m0 (inBox 80 1120 80 720) st.1)
      _ _ hst
    intro st3 oid _ hst3
    exact writes_dropSecondaryStep g m0 did mid mpos st3 oid hst3

theorem writes_dropSecondaryLoop (g : Geom) (m0 : PosMap) (did : Nat)
    (movedIds keys : List Nat) (fuel : Nat) :
    ∀ m, Writes m0 (inBox 80 1120 80 720) m →
      Writes m0 (inBox 80 1120 80 720) (dropSecondaryLoop g did movedIds keys fuel m).1 := by
  induction fuel with
  | zero =>
    intro m hm
    exact hm
  | succ k ih =>
    intro m hm
    unfold dropSecondaryLoop
    by_cases hr : (dropSecondaryPass g did movedIds keys (m, false)).2 = true
    · rw [if_pos hr]
      exact ih _ (writes_dropSecondaryPass g m0 did movedIds keys (m, false) hm)
    · rw [if_neg hr]
      exact writes_dropSecondaryPass g m0 did movedIds keys (m, false) hm

/-- All second components of the working list are inside the box. -/
def AllIn (B : Point → Prop) (l : List (Ent × Point)) : Prop :=
  ∀ ep ∈ l, B ep.2

theorem allIn_circleStep (g : Geom) (i : Nat) (st : List (Ent × Point) × Bool) (j : Nat)
    (hm : AllIn (inBox 40 1160 40 760) st.1) :
    AllIn (inBox 40 1160 40 760) (circleStep g i st j).1 := by
  unfold circleStep
  rcases h1 : st.1[i]? with _ | ep1
  · exact hm
  · rcases h2 : st.1[j]? with _ | ep2
    · exact hm
    · dsimp only
      by_cases hd : g.sqrt ((ep1.2.x - ep2.2.x) * (ep1.2.x - ep2.2.x) +
          (ep1.2.y - ep2.2.y) * (ep1.2.y - ep2.2.y)) < minDistance
      · rw [if_pos hd]
        intro ep hep
        rcases List.mem_or_eq_of_mem_set hep with hep' | hep'
        · rcases List.mem_or_eq_of_mem_set hep' with hep'' | hep''
          · exact hm ep hep''
          · rw [hep'']
            exact inBox_clamp _ _ _ _ _ _ (by norm_num) (by norm_num)
        · rw [hep']
          exact inBox_clamp _ _ _ _ _ _ (by norm_num) (by norm_num)
      · rw [if_neg hd]
        exact hm

theorem allIn_circleRelaxLoop (g : Geom) (fuel : Nat) :
    ∀ l, AllIn (inBox 40 1160 40 760) l →
      AllIn (inBox 40 1160 40 760) (circleRelaxLoop g fuel l).1 := by
  have hsweep : ∀ l, AllIn (inBox 40 1160 40 760) l →
      AllIn (inBox 40 1160 40 760) (circleSweep g l).1 := by
    intro l hl
    unfold circleSweep
    apply foldl_preserve _
      (fun st : List (Ent × Point) × Bool => AllIn (inBox 40 1160 40 760) st.1) _ _ hl
    intro st i _ hst
    apply foldl_preserve _
      (fun st : List (Ent × Point) × Bool => AllIn (inBox 40 1160 40 760) st.1) _ _ hst
    intro st2 j _ hst2
    exact allIn_circleStep g i st2 j hst2
  induction fuel with
  | zero =>
    intro l hl
    exact hl
  | succ k ih =>
    intro l hl
    unfold circleRelaxLoop
    by_cases hr : (circleSweep g l).2 = true
    · rw [if_pos hr]
      exact ih _ (hsweep l hl)
    · rw [if_neg hr]
      exact hsweep l hl

theorem writes_arrangeConnectedNodesInCircle (g : Geom) (defs filtered : List Ent)
    (m : PosMap) (c : Ent) :
    Writes m (inBox 40 1160 40 760) (arrangeConnectedNodesInCircle g defs filtered m c) := by
  unfold arrangeConnectedNodesInCircle
  by_cases hN : (getEntityConnections defs c).length = 0
  · rw [if_pos hN]
    exact writes_refl _ _
  · rw [if_neg hN]
    dsimp only
    have hinit : AllIn (inBox 40 1160 40 760)
        ((getEntityConnections defs c).enum.map (fun p =>
          (p.2, (⟨clampB 40 1160 ((getNodePosition m c filtered).x +
              (160 + ((max 0 (((getEntityConnections defs c).length : Int) - 8) : Int) : ℚ) * 20) *
                g.cos (-g.pi / 2 + (2 * g.pi * ((p.1 : Nat) : ℚ)) /
                  ((getEntityConnections defs c).length : ℚ))),
            clampB 40 760 ((getNodePosition m c filtered).y +
              (160 + ((max 0 (((getEntityConnections defs c).length : Int) - 8) : Int) : ℚ) * 20) *
                g.sin (-g.pi / 2 + (2 * g.pi * ((p.1 : Nat) : ℚ)) /
                  ((getEntityConnections defs c).length : ℚ)))⟩ : Point)))) := by
      intro ep hep
      rcases List.mem_map.mp hep with ⟨q, _, hq⟩
      rw [← hq]
      exact inBox_clamp _ _ _ _ _ _ (by norm_num) (by norm_num)
    have hrelax := allIn_circleRelaxLoop g 15 _ hinit
    apply foldl_preserve _ (fun acc : PosMap => Writes m (inBox 40 1160 40 760) acc)
    · exact writes_refl _ _
    · intro acc ep hep hacc
      exact writes_mapSet _ _ _ _ _ hacc (hrelax ep hep)

end CHVis

namespace CHVis

theorem calculateInitialPosition_inBox (g : Geom) (r1 r2 : ℚ) (e : Ent)
    (allE : List Ent) :
    inBox 100 1100 100 700 (calculateInitialPosition g r1 r2 e allE) := by
  unfold calculateInitialPosition
  by_cases h1 : allE.length = 1
  · rw [if_pos h1]
    refine ⟨by norm_num, by norm_num, by norm_num, by norm_num⟩
  · rw [if_neg h1]
    exact inBox_clamp _ _ _ _ _ _ (by norm_num) (by norm_num)

/-- The C2 claim as stated: every position committed by the
overlap-resolution and drop paths lands in `[80, 1120] × [80, 720]`,
every initial placement lands in `[100, 1100] × [100, 700]`, and the
circular-arrangement and node-drag commits land in one of the two boxes. -/
def claimCommittedBounds : Prop :=
  ∀ g : Geom,
    (∀ m k p, mapGet (resolveInitialOverlaps g m).1 k = some p →
        mapGet m k = some p ∨ inBox 80 1120 80 720 p) ∧
    (∀ m dp did k p, mapGet (resolveCollisionsOnDrop g m dp did).1 k = some p →
        mapGet m k = some p ∨ inBox 80 1120 80 720 p) ∧
    (∀ defs filtered m c k p,
        mapGet (arrangeConnectedNodesInCircle g defs filtered m c) k = some p →
        mapGet m k = some p ∨ inBox 80 1120 80 720 p ∨ inBox 100 1100 100 700 p) ∧
    (∀ r1 r2 e allE, inBox 100 1100 100 700 (calculateInitialPosition g r1 r2 e allE)) ∧
    (∀ m filtered dn s cx cy dsx dsy k p,
        mapGet (handleNodeDrag m filtered dn s cx cy dsx dsy).1 k = some p →
        mapGet m k = some p ∨ inBox 80 1120 80 720 p ∨ inBox 100 1100 100 700 p)

/-- C2 is false as stated: `handleNodeDrag` commits the dragged node's
new position with no clamping at all.  Dragging the only node (which sits
at the `(600, 400)` fallback) by `clientX - dragStartX = 10000` at scale 1
commits `(10600, 400)`, far outside both boxes. -/
theorem claimCommittedBounds_false : ¬ claimCommittedBounds := by
  intro h
  obtain ⟨-, -, -, -, hdrag⟩ := h gW
  have h1 := hdrag [] [wE] wE 1 10000 0 0 0 wE.id ⟨10600, 400⟩ (by
    norm_num [handleNodeDrag, getNodePosition, mapGet, mapSet, List.find?, wE])
  rcases h1 with h1 | h1 | h1
  · simp [mapGet, List.find?] at h1
  · norm_num [inBox] at h1
  · norm_num [inBox] at h1

/-- Amended C2: positions *written* by the overlap pass and the drop
pass's push phases are clamped to `[80, 1120] × [80, 720]` (but the
dropped node's own committed position `dp` is exempt — it is written
verbatim before the pass), positions written by the circular arrangement
are clamped to the SVG bounds `[40, 1160] × [40, 760]`, and every initial
placement is clamped to `[100, 1100] × [100, 700]`; `handleNodeDrag`
commits unclamped (see the counterexample). -/
theorem committedPositionBounds (g : Geom) :
    (∀ m k p, mapGet (resolveInitialOverlaps g m).1 k = some p →
        mapGet m k = some p ∨ inBox 80 1120 80 720 p) ∧
    (∀ m dp did k p, mapGet (resolveCollisionsOnDrop g m dp did).1 k = some p →
        mapGet (mapSet m did dp) k = some p ∨ inBox 80 1120 80 720 p) ∧
    (∀ defs filtered m c k p,
        mapGet (arrangeConnectedNodesInCircle g defs filtered m c) k = some p →
        mapGet m k = some p ∨ inBox 40 1160 40 760 p) ∧
    (∀ r1 r2 e allE, inBox 100 1100 100 700 (calculateInitialPosition g r1 r2 e allE)) := by
  refine ⟨?_, ?_, ?_, ?_⟩
  · intro m k p hp
    exact writes_sweepLoop g m 30 m (writes_refl _ _) k p hp
  · intro m dp did k p hp
    unfold resolveCollisionsOnDrop at hp
    by_cases hc : (dropCollideList g (mapSet m did dp) dp did).length = 0
    · rw [if_pos hc] at hp
      exact Or.inl hp
    · rw [if_neg hc] at hp
      exact writes_dropSecondaryLoop g (mapSet m did dp) did _ _ 20 _
        (writes_dropPushPhase g (mapSet m did dp) dp _ _ (writes_refl _ _)) k p hp
  · intro defs filtered m c k p hp
    exact writes_arrangeConnectedNodesInCircle g defs filtered m c k p hp
  · exact calculateInitialPosition_inBox g

theorem committedPositionBounds_witness :
    inBox 100 1100 100 700 (calculateInitialPosition gW 0 0 wE [wE]) :=
  (committedPositionBounds gW).2.2.2 0 0 wE [wE]

end CHVis

namespace CHVis

/-! #### C8: connection de-duplication -/

/-- Two emitted lines cover the same unordered entity pair. -/
def samePair (s1 s2 : LineSeg) : Prop :=
  (s1.src = s2.src ∧ s1.tgt = s2.tgt) ∨ (s1.src = s2.tgt ∧ s1.tgt = s2.src)

/-- The rendered-key/segment invariant of the rendering fold: every
emitted segment's pair is claimed in the key set, and no two emitted
segments cover the same unordered pair. -/
def RenderInv (st : List (Nat × Nat) × List LineSeg) : Prop :=
  (∀ s ∈ st.2, (s.src, s.tgt) ∈ st.1) ∧
    st.2.Pairwise (fun s1 s2 => ¬ samePair s1 s2)

/-- Amended C8: within a single render pass, at most one line is emitted
per unordered entity pair — a second occurrence in either direction is
suppressed by the rendered-key set, which claims the pair before the
emission checks run. -/
theorem renderConnections_dedup (g : Geom) (filtered defs : List Ent) (np : PosMap)
    (fn se : Option Ent) (hp : List (Nat × Nat)) :
    (renderConnections g filtered defs np fn se hp).Pairwise
      (fun s1 s2 => ¬ samePair s1 s2) := by
  unfold renderConnections
  apply And.right (a := ∀ s ∈ (filtered.foldl _ (([], []) :
    List (Nat × Nat) × List LineSeg)).2, (s.src, s.tgt) ∈ (filtered.foldl _ (([], []) :
    List (Nat × Nat) × List LineSeg)).1)
  apply foldl_preserve _ RenderInv
  · exact ⟨by simp, by simp⟩
  · intro st d _ hst
    dsimp only
    apply foldl_preserve _ RenderInv _ _ hst
    intro st2 c _ hst2
    dsimp only
    by_cases hcon : (st2.1.contains (d.id, c.id) || st2.1.contains (c.id, d.id)) = true
    · rw [if_pos hcon]
      exact hst2
    · rw [if_neg hcon]
      have hnotmem : (d.id, c.id) ∉ st2.1 ∧ (c.id, d.id) ∉ st2.1 := by
        rw [Bool.or_eq_true] at hcon
        push_neg at hcon
        constructor
        · intro hm
          exact hcon.1 (by simpa using hm)
        · intro hm
          exact hcon.2 (by simpa using hm)
      have hkeep : ∀ l2 : List LineSeg, l2 = st2.2 →
          RenderInv (st2.1 ++ [(d.id, c.id)], l2) := by
        intro l2 hl2
        subst hl2
        exact ⟨fun s hs => List.mem_append_left _ (hst2.1 s hs), hst2.2⟩
      split
      · exact hkeep _ rfl
      · split
        · exact hkeep _ rfl
        · split
          · exact hkeep _ rfl
          · refine ⟨?_, ?_⟩
            · intro s hs
              rcases List.mem_append.mp hs with hs1 | hs2
              · exact List.mem_append_left _ (hst2.1 s hs1)
              · have hs' := List.mem_singleton.mp hs2
                have hseq : s.src = d.id ∧ s.tgt = c.id := by
                  rw [hs']
                  exact ⟨rfl, rfl⟩
                apply List.mem_append_right
                simp [hseq.1, hseq.2]
            · rw [List.pairwise_append]
              refine ⟨hst2.2, List.pairwise_singleton _ _, ?_⟩
              intro a ha b hb
              have hb' := List.mem_singleton.mp hb
              have hbeq : b.src = d.id ∧ b.tgt = c.id := by
                rw [hb']
                exact ⟨rfl, rfl⟩
              intro hsame
              unfold samePair at hsame
              have hamem := hst2.1 a ha
              rcases hsame with ⟨h1, h2⟩ | ⟨h1, h2⟩
              · rw [h1, hbeq.1, h2, hbeq.2] at hamem
                exact hnotmem.1 hamem
              · rw [h1, hbeq.2, h2, hbeq.1] at hamem
                exact hnotmem.2 hamem

end CHVis

namespace CHVis

/-- The C8 claim as stated: for every rendered pair of entities joined by
a relation `A → B` and its synthesized reverse `B → A`, exactly one line
is emitted. -/
def claimPairExactlyOneLine : Prop :=
  ∀ (g : Geom) (filtered defs : List Ent) (np : PosMap) (fn se : Option Ent)
    (hp : List (Nat × Nat)) (A B : Ent),
    A ∈ filtered → B ∈ filtered →
    (∃ r ∈ A.relations, r.target = B.name) →
    (∃ r ∈ B.relations, r.target = A.name ∧ r.isReverse = true) →
    ((renderConnections g filtered defs np fn se hp).filter
      (fun s => (s.src == A.id && s.tgt == B.id) ||
        (s.src == B.id && s.tgt == A.id))).length = 1

/-- Entity `A` of the C8 counterexample, related to `"B"`. -/
def cA : Ent := { id := 1, name := "A", relations := [{
  target := "B"
  type := "Parent-OneToMany"
  name := some "r"
  role := some "Parent"
  cardinality := some "OneToMany" }] }

/-- Entity `B` of the C8 counterexample, holding the synthesized reverse. -/
def cB : Ent := { id := 2, name := "B", relations := [{
  target := "A"
  type := "Child-ManyToOne"
  name := some "r"
  role := some "Child"
  cardinality := some "ManyToOne"
  isReverse := true }] }

/-- Both entities sit at the same point. -/
def cexRenderMap : PosMap := [(1, ⟨100, 100⟩), (2, ⟨100, 100⟩)]

/-- The full render pass on the coincident pair emits no line at all:
the key `1→2` is claimed, the `distance < 20` check then drops the line,
and the reverse direction is suppressed by the claimed key. -/
theorem cexRender_run :
    renderConnections gW [cA, cB] [cA, cB] cexRenderMap none none [] = [] := by
  have hA : (getEntityConnections [cA, cB] cA).take 4 = [cB] := by decide
  have hB : (getEntityConnections [cA, cB] cB).take 4 = [cA] := by decide
  have hgA : getNodePosition cexRenderMap cA [cA, cB] = ⟨100, 100⟩ := by
    simp [getNodePosition, cexRenderMap, mapGet, List.find?, cA]
  have hgB : getNodePosition cexRenderMap cB [cA, cB] = ⟨100, 100⟩ := by
    simp [getNodePosition, cexRenderMap, mapGet, List.find?, cB]
  have hq0 : gW.sqrt 0 < 20 := by
    norm_num [gW]
  have hidA : cA.id = 1 := rfl
  have hidB : cB.id = 2 := rfl
  unfold renderConnections
  rw [List.foldl_cons, List.foldl_cons, List.foldl_nil]
  dsimp only
  rw [hA, hB, hgA, hgB]
  simp [List.find?, hq0, hgA, hgB, hidA, hidB]

/-- C8 is false as stated: the rendered-key set claims a pair before the
`distance < 20` check, so a mutually-related pair of coincident nodes
yields zero lines, not exactly one. -/
theorem claimPairExactlyOneLine_false : ¬ claimPairExactlyOneLine := by
  intro h
  have h1 := h gW [cA, cB] [cA, cB] cexRenderMap none none [] cA cB
    (by decide) (by decide)
    (by exact ⟨cA.relations.head (by decide), by decide, by decide⟩)
    (by exact ⟨cB.relations.head (by decide), by decide, by decide⟩)
  rw [cexRender_run] at h1
  simp at h1

end CHVis

namespace CHVis

/-! #### C9: the `mounted` teardown flag

The effect body (lines 173-199) runs `setLoading(true)` synchronously at
step 0, the pagination loop commits `setLoadingProgress` before every
page request (line 211, after the first page these run past `await`
boundaries), `processEntityDefinitions` commits `setLoadingProgress` per
processed item (line 383), and only the final `setDefinitions` /
`setLoading(false)` (line 184) and `setError` / `setLoading(false)`
(line 194) commits are guarded by `mounted`.  An unmount at async step
`u ≥ 1` (the teardown callback flips `mounted` at an `await` boundary;
step 0 is the synchronous mount-time prefix) suppresses exactly the
guarded commits with `step ≥ u`. -/

/-- All state commits of one fetch sequence, in order: the initial
loading flag, the per-page progress commits, the per-valid-item
processing progress commits, then the guarded success or error commits.
`valid` is the `typeof def === 'object'` item filter. -/
def fetchSequenceEvents {α : Type} (source : Nat → FetchResult α)
    (valid : α → Bool) : List Ev :=
  let run := fetchAllPagesRun source
  [Ev.mk 0 .loadingFlag false]
    ++ run.events
    ++ (run.allData.filter valid).map (fun _ => Ev.mk run.step .progress false)
    ++ (if 0 < (run.allData.filter valid).length then
          [Ev.mk (run.step + 1) .defsCommit true, Ev.mk (run.step + 1) .loadingFlag true]
        else
          [Ev.mk (run.step + 1) .errorCommit true, Ev.mk (run.step + 1) .loadingFlag true])

theorem fetchPagesLoop_events_progress {α : Type} (source : Nat → FetchResult α)
    (fuel : Nat) :
    ∀ st : FetchSt α, (∀ e ∈ st.events, e.kind = .progress ∧ e.guarded = false) →
      ∀ e ∈ (fetchPagesLoop source fuel st).events,
        e.kind = .progress ∧ e.guarded = false := by
  induction fuel with
  | zero =>
    intro st hst e he
    exact hst e he
  | succ k ih =>
    intro st hst e he
    have hst0 : ∀ e ∈ st.events ++ [Ev.mk st.step .progress false],
        e.kind = .progress ∧ e.guarded = false := by
      intro e' he'
      rcases List.mem_append.mp he' with h1 | h2
      · exact hst e' h1
      · rw [List.mem_singleton.mp h2]
        exact ⟨rfl, rfl⟩
    unfold fetchPagesLoop at he
    rcases hsrc : source st.page with _ | body
    · rw [hsrc] at he
      exact hst0 e he
    · rw [hsrc] at he
      dsimp only at he
      by_cases hz : (extractItems body).length = 0
      · rw [if_pos hz] at he
        exact hst0 e he
      · rw [if_neg hz] at he
        by_cases hlt : (extractItems body).length < 25
        · rw [if_pos hlt] at he
          exact hst0 e he
        · rw [if_neg hlt] at he
          exact ih _ hst0 e he

/-- Amended C9: in the whole fetch sequence the definitions, error and
final loading-flag commits are all `mounted`-guarded, and every commit
that can still fire after an unmount at step `u ≥ 1` (unguarded, at a
step `≥ u`) is a `setLoadingProgress` commit — the progress commits at
lines 211 and 383 are the only unguarded state updates besides the
synchronous mount-time `setLoading(true)` at step 0. -/
theorem fetchCommitGuards {α : Type} (source : Nat → FetchResult α)
    (valid : α → Bool) (u : Nat) (hu : 1 ≤ u) :
    ∀ e ∈ fetchSequenceEvents source valid,
      (e.guarded = false → u ≤ e.step → e.kind = .progress) ∧
      ((e.kind = .defsCommit ∨ e.kind = .errorCommit ∨
          (e.kind = .loadingFlag ∧ 1 ≤ e.step)) → e.guarded = true) := by
  intro e he
  unfold fetchSequenceEvents at he
  dsimp only at he
  rcases List.mem_append.mp he with he1 | htail
  · rcases List.mem_append.mp he1 with he2 | hproc
    · rcases List.mem_append.mp he2 with hinit | hloop
      · rw [List.mem_singleton.mp hinit]
        refine ⟨fun _ hstep => ?_, ?_⟩
        · exact absurd (by simpa using hstep : u ≤ 0) (by omega)
        · rintro (h | h | ⟨h, hs⟩)
          · exact CommitKind.noConfusion h
          · exact CommitKind.noConfusion h
          · simp at hs
      · have hprog := fetchPagesLoop_events_progress source 20 fetchInit
          (by intro e' he'; exact absurd he' (by simp [fetchInit])) e hloop
        refine ⟨fun _ _ => hprog.1, ?_⟩
        rintro (h | h | ⟨h, _⟩) <;>
          exact CommitKind.noConfusion (hprog.1.symm.trans h)
    · rcases List.mem_map.mp hproc with ⟨x, _, hx⟩
      rw [← hx]
      refine ⟨fun _ _ => rfl, ?_⟩
      rintro (h | h | ⟨h, _⟩) <;> exact CommitKind.noConfusion h
  · by_cases hpos : 0 < ((fetchAllPagesRun source).allData.filter valid).length
    · rw [if_pos hpos] at htail
      rcases List.mem_cons.mp htail with h1 | h2
      · rw [h1]
        exact ⟨fun hg _ => Bool.noConfusion hg, fun _ => rfl⟩
      · rw [List.mem_singleton.mp h2]
        exact ⟨fun hg _ => Bool.noConfusion hg, fun _ => rfl⟩
    · rw [if_neg hpos] at htail
      rcases List.mem_cons.mp htail with h1 | h2
      · rw [h1]
        exact ⟨fun hg _ => Bool.noConfusion hg, fun _ => rfl⟩
      · rw [List.mem_singleton.mp h2]
        exact ⟨fun hg _ => Bool.noConfusion hg, fun _ => rfl⟩

/-- The C9 claim as stated: no commit of the fetch sequence fires after
the owning view unmounts — for every unmount step `u ≥ 1`, the set of
unguarded commits scheduled at a step `≥ u` is empty. -/
def claimNoCommitAfterUnmount : Prop :=
  ∀ (source : Nat → FetchResult Nat) (valid : Nat → Bool) (u : Nat), 1 ≤ u →
    (fetchSequenceEvents source valid).filter
      (fun e => decide (u ≤ e.step) && !e.guarded) = []

/-- C9 is false as stated: with the 25/25/25/10 mock source and an
unmount right after the first page's request is issued (`u = 1`), the
unguarded `setLoadingProgress` commits of pages 2-4 (steps 3, 6, 9) and
of item processing all fire after the unmount. -/
theorem claimNoCommitAfterUnmount_false : ¬ claimNoCommitAfterUnmount := by
  intro h
  have h1 := h source85 (fun _ => true) 1 (by norm_num)
  revert h1
  decide

/-- Witness: the page-2 progress commit (step 3) of the mock run is in
the sequence, is unguarded, and the theorem classifies it. -/
theorem fetchCommitGuards_witness :
    ((Ev.mk 3 .progress false).guarded = false → 1 ≤ (Ev.mk 3 .progress false).step →
      (Ev.mk 3 .progress false).kind = .progress) ∧
    (((Ev.mk 3 .progress false).kind = .defsCommit ∨
        (Ev.mk 3 .progress false).kind = .errorCommit ∨
        ((Ev.mk 3 .progress false).kind = .loadingFlag ∧
          1 ≤ (Ev.mk 3 .progress false).step)) →
      (Ev.mk 3 .progress false).guarded = true) :=
  fetchCommitGuards source85 (fun _ => true) 1 (by norm_num)
    (Ev.mk 3 .progress false) (by decide)

end CHVis
